import Mathlib

/-!
Shallow embedding of the terrain generator in `terrain.py` (class `MapGrid`).

Numeric quantities are modelled over an arbitrary linear ordered field `α`;
the intended instance is the real numbers, and rational instances are used to
evaluate the definitions on concrete states.  The float operation `x ** 0.5`
(square root) is passed in as an explicit operator `rt : α → α`; no theorem
below depends on properties of `rt`.  NumPy's negative-index semantics
(`a[-1]` is the last entry of `a`) is modelled by `npIdx`.  Unbounded
`while` loops are modelled with an explicit fuel argument and an `Option`
result; `none` models nontermination or a raised exception.
-/

set_option autoImplicit false

namespace Terrain

variable {α : Type} [LinearOrderedField α]

/-- The global `sizemap` constant of terrain.py. -/
def sizemap : ℕ := 15

/-- NumPy indexing into an array of length `n`: a negative index `i` addresses `n + i`. -/
def npIdx (n : ℕ) (i : ℤ) : ℕ :=
  if i < 0 then (n + i).toNat else i.toNat

/-- `np.argmin` over three values: the index of the first minimum. -/
def argmin3 (a b c : α) : Fin 3 :=
  if a ≤ b then (if a ≤ c then 0 else 2) else (if b ≤ c then 1 else 2)

/-- Squared planar distance between two points. -/
def dist2 (p q : α × α) : α :=
  (p.1 - q.1) ^ 2 + (p.2 - q.2) ^ 2

/-- `distance(a, b)` of terrain.py: the square root (`rt`) of the summed squared displacement. -/
def distF (rt : α → α) (p q : α × α) : α :=
  rt (dist2 p q)

/-- A path-cache endpoint: a mesh vertex id, or one of the two symbolic corner
anchors (the strings `"topleft"` / `"bottomright"` in the Python source). -/
inductive PKey where
  | v (i : ℕ)
  | topleft
  | bottomright
deriving DecidableEq

/-- The state of a `MapGrid` object: the mesh data built by `build_grid`
(`n = nvxs`, `adj = adj_mat` with `-1` for a missing slot, `vxs`, the boundary
flags `edge`, the Voronoi `regions` lists), the per-vertex fields
(`elevation` has length `n + 1`, index `n` being the sentinel entry), and the
settlement/routing data.  All fields are modelled as total functions; only
indices below the respective array length are meaningful. -/
structure MapState (α : Type) where
  n : ℕ
  adj : ℕ → Fin 3 → ℤ
  vxs : ℕ → α × α
  edge : ℕ → Bool
  elevation : ℕ → α
  downhill : ℕ → ℤ
  flow : ℕ → α
  slope : ℕ → α
  territories : ℕ → ℤ
  cities : List ℕ
  forests : Finset ℤ
  city_score : ℕ → α
  forest_score : ℕ → α
  path_cache : List ((PKey × PKey) × (List ℕ × α))
  regions : List (List ℤ)
  elevation_pts : ℕ → α

/-- `elevation[i]` under NumPy indexing; the elevation array has length `n + 1`
(index `n` is the sentinel pinned to `0` by the generator). -/
def MapState.elevAt (s : MapState α) (i : ℤ) : α :=
  s.elevation (npIdx (s.n + 1) i)

/-- The downhill candidate of `u` in `calc_downhill`:
`adj_mat[u, argmin(elevation[adj_mat[u]])]` (a missing `-1` slot reads the
sentinel elevation). -/
def MapState.dhRaw (s : MapState α) (u : ℕ) : ℤ :=
  s.adj u (argmin3 (s.elevAt (s.adj u 0)) (s.elevAt (s.adj u 1)) (s.elevAt (s.adj u 2)))

/-- `calc_downhill` as a function of the state: the candidate is cleared to `-1`
where `elevation[:-1] <= elevation[downhill]`, and then on every boundary vertex. -/
def MapState.calcDownhillFn (s : MapState α) (u : ℕ) : ℤ :=
  let c := s.dhRaw u
  let c1 := if s.elevation u ≤ s.elevAt c then -1 else c
  if s.edge u then -1 else c1

/-- The `calc_downhill` method: store the recomputed downhill field. -/
def MapState.calc_downhill (s : MapState α) : MapState α :=
  { s with downhill := fun u => s.calcDownhillFn u }

theorem argmin3_val (a b c : α) : ![a, b, c] (argmin3 a b c) = min (min a b) c := by
  unfold argmin3
  by_cases hab : a ≤ b
  · by_cases hac : a ≤ c
    · rw [if_pos hab, if_pos hac]
      show a = min (min a b) c
      rw [min_eq_left hab, min_eq_left hac]
    · rw [if_pos hab, if_neg hac]
      show c = min (min a b) c
      rw [min_eq_left hab, min_eq_right (not_le.mp hac).le]
  · by_cases hbc : b ≤ c
    · rw [if_neg hab, if_pos hbc]
      show b = min (min a b) c
      rw [min_eq_right (not_le.mp hab).le, min_eq_left hbc]
    · rw [if_neg hab, if_neg hbc]
      show c = min (min a b) c
      rw [min_eq_right (not_le.mp hab).le, min_eq_right (not_le.mp hbc).le]

theorem elevAt_adj_eq (s : MapState α) (u : ℕ) (i : Fin 3) :
    s.elevAt (s.adj u i) =
      ![s.elevAt (s.adj u 0), s.elevAt (s.adj u 1), s.elevAt (s.adj u 2)] i := by
  fin_cases i <;> rfl

/-- Claim C2: after `calc_downhill()`, a boundary vertex always has
`downhill = -1`; a non-boundary vertex `u` (whose adjacency slots are all
real neighbours) gets as downhill a neighbour of minimum elevation when that
minimum is strictly below `elevation[u]`, and `-1` otherwise. -/
theorem claim_C2_calc_downhill (s : MapState α) (u : ℕ) :
    (s.edge u = true → s.calc_downhill.downhill u = -1) ∧
    (s.edge u = false → (∀ i : Fin 3, s.adj u i ≠ -1) →
      (min (min (s.elevAt (s.adj u 0)) (s.elevAt (s.adj u 1))) (s.elevAt (s.adj u 2)) <
          s.elevation u →
        ∃ i : Fin 3, s.calc_downhill.downhill u = s.adj u i ∧
          s.elevAt (s.adj u i) =
            min (min (s.elevAt (s.adj u 0)) (s.elevAt (s.adj u 1))) (s.elevAt (s.adj u 2))) ∧
      (s.elevation u ≤
          min (min (s.elevAt (s.adj u 0)) (s.elevAt (s.adj u 1))) (s.elevAt (s.adj u 2)) →
        s.calc_downhill.downhill u = -1)) := by
  constructor
  · intro he
    simp [MapState.calc_downhill, MapState.calcDownhillFn, he]
  · intro he _
    have hsel : s.elevAt (s.dhRaw u) =
        min (min (s.elevAt (s.adj u 0)) (s.elevAt (s.adj u 1))) (s.elevAt (s.adj u 2)) := by
      rw [MapState.dhRaw, elevAt_adj_eq, argmin3_val]
    constructor
    · intro hlt
      refine ⟨argmin3 (s.elevAt (s.adj u 0)) (s.elevAt (s.adj u 1)) (s.elevAt (s.adj u 2)), ?_, ?_⟩
      · simp only [MapState.calc_downhill, MapState.calcDownhillFn, he, Bool.false_eq_true,
          if_false]
        rw [if_neg (by rw [hsel]; exact not_le.mpr hlt)]
        rfl
      · rw [elevAt_adj_eq, argmin3_val]
    · intro hle
      simp only [MapState.calc_downhill, MapState.calcDownhillFn, he, Bool.false_eq_true,
        if_false]
      rw [if_pos (by rw [hsel]; exact hle)]

/-- `calc_downhill` only ever assigns a vertex id whose elevation is strictly
below the vertex's own elevation (the `elevation[:-1] <= elevation[downhill]`
mask clears every other candidate). -/
theorem calcDownhillFn_lowers (s : MapState α) (u v : ℕ)
    (h : s.calcDownhillFn u = (v : ℤ)) : s.elevation v < s.elevation u := by
  simp only [MapState.calcDownhillFn] at h
  by_cases he : s.edge u
  · rw [if_pos he] at h
    omega
  · rw [if_neg he] at h
    by_cases hle : s.elevation u ≤ s.elevAt (s.dhRaw u)
    · rw [if_pos hle] at h
      omega
    · rw [if_neg hle] at h
      have hlt := not_le.mp hle
      rw [h] at hlt
      have hv : s.elevAt (v : ℤ) = s.elevation v := by
        simp only [MapState.elevAt, npIdx]
        rw [if_neg (by omega : ¬((v : ℤ) < 0))]
        simp
      rwa [hv] at hlt

/-- One step along the downhill map (`none` when `downhill[u] = -1`). -/
def MapState.dhStep (s : MapState α) (u : ℕ) : Option ℕ :=
  if 0 ≤ s.downhill u then some (s.downhill u).toNat else none

/-- Following downhill pointers `k` times. -/
def MapState.dhIter (s : MapState α) : ℕ → ℕ → Option ℕ
  | 0, u => some u
  | k + 1, u => (s.dhStep u).bind fun w => s.dhIter k w

theorem dhIter_le (s : MapState α)
    (hlow : ∀ u v : ℕ, s.downhill u = (v : ℤ) → s.elevation v < s.elevation u) :
    ∀ k u v, s.dhIter k u = some v → s.elevation v ≤ s.elevation u := by
  intro k
  induction k with
  | zero =>
    intro u v h
    simp only [MapState.dhIter, Option.some.injEq] at h
    rw [h]
  | succ k ih =>
    intro u v h
    simp only [MapState.dhIter, MapState.dhStep] at h
    by_cases hnn : 0 ≤ s.downhill u
    · rw [if_pos hnn, Option.some_bind] at h
      have hw : s.downhill u = ((s.downhill u).toNat : ℤ) := (Int.toNat_of_nonneg hnn).symm
      exact le_trans (ih _ _ h) (hlow u _ hw).le
    · rw [if_neg hnn, Option.none_bind] at h
      exact absurd h (by simp)

theorem dhIter_lt (s : MapState α)
    (hlow : ∀ u v : ℕ, s.downhill u = (v : ℤ) → s.elevation v < s.elevation u) :
    ∀ k u v, s.dhIter (k + 1) u = some v → s.elevation v < s.elevation u := by
  intro k u v h
  simp only [MapState.dhIter, MapState.dhStep] at h
  by_cases hnn : 0 ≤ s.downhill u
  · rw [if_pos hnn, Option.some_bind] at h
    have hw : s.downhill u = ((s.downhill u).toNat : ℤ) := (Int.toNat_of_nonneg hnn).symm
    exact lt_of_le_of_lt (dhIter_le s hlow k _ v h) (hlow u _ hw)
  · rw [if_neg hnn, Option.none_bind] at h
    exact absurd h (by simp)

theorem dhIter_add (s : MapState α) (a b : ℕ) : ∀ u,
    s.dhIter (a + b) u = (s.dhIter a u).bind fun w => s.dhIter b w := by
  induction a with
  | zero => intro u; simp [MapState.dhIter]
  | succ a ih =>
    intro u
    have hab : a + 1 + b = (a + b) + 1 := by omega
    rw [hab]
    show (s.dhStep u).bind (fun w => s.dhIter (a + b) w) = _
    conv_rhs => rw [show s.dhIter (a + 1) u = (s.dhStep u).bind fun w => s.dhIter a w from rfl]
    rw [Option.bind_assoc]
    exact congrArg _ (funext fun w => ih w)

/-- Claim C3: after `calc_downhill()`, repeatedly following downhill pointers
never revisits a vertex — two different numbers of steps from the same start
always land on different vertices (the downhill relation is a forest). -/
theorem claim_C3_downhill_acyclic (s : MapState α) (u i j vi vj : ℕ)
    (hi : (s.calc_downhill).dhIter i u = some vi)
    (hj : (s.calc_downhill).dhIter j u = some vj) (hij : i < j) : vi ≠ vj := by
  have hlow : ∀ a b : ℕ, (s.calc_downhill).downhill a = (b : ℤ) →
      (s.calc_downhill).elevation b < (s.calc_downhill).elevation a := by
    intro a b hab
    exact calcDownhillFn_lowers s a b hab
  obtain ⟨d, rfl⟩ : ∃ d, j = i + (d + 1) := ⟨j - i - 1, by omega⟩
  rw [dhIter_add, hi, Option.some_bind] at hj
  have hdec := dhIter_lt (s.calc_downhill) hlow d vi vj hj
  intro hEq
  rw [hEq] at hdec
  exact lt_irrefl _ hdec

/-- A concrete rational state: two mutually adjacent interior vertices, vertex
0 strictly above vertex 1; all other fields inert.  Used to evaluate the
downhill computation. -/
def sW2 : MapState ℚ where
  n := 2
  adj := fun u _ => if u = 0 then 1 else 0
  vxs := fun u => (if u = 0 then 0 else 1, 0)
  edge := fun _ => false
  elevation := fun u => if u = 0 then 1 else 0
  downhill := fun _ => -1
  flow := fun _ => 0
  slope := fun _ => 0
  territories := fun _ => -1
  cities := []
  forests := ∅
  city_score := fun _ => 0
  forest_score := fun _ => 0
  path_cache := []
  regions := []
  elevation_pts := fun _ => 0

theorem claim_C2_witness :
    sW2.edge 1 = false ∧ (∀ i : Fin 3, sW2.adj 1 i ≠ -1) ∧
      sW2.elevation 1 ≤
        min (min (sW2.elevAt (sW2.adj 1 0)) (sW2.elevAt (sW2.adj 1 1)))
          (sW2.elevAt (sW2.adj 1 2)) ∧
      sW2.calc_downhill.downhill 1 = -1 := by
  refine ⟨by decide, by decide, by decide, ?_⟩
  exact ((claim_C2_calc_downhill sW2 1).2 (by decide) (by decide)).2 (by decide)

theorem claim_C3_witness :
    sW2.calc_downhill.dhIter 0 0 = some 0 ∧ sW2.calc_downhill.dhIter 1 0 = some 1 ∧
      (0 : ℕ) ≠ 1 := by
  refine ⟨by decide, by decide, ?_⟩
  exact claim_C3_downhill_acyclic sW2 0 0 1 0 1 (by decide) (by decide) (by decide)

/-- The set of vertices draining directly into `v` (`downhill[u] = v`). -/
def MapState.upstream (s : MapState α) (v : ℕ) : Finset ℕ :=
  (Finset.range s.n).filter fun u => s.downhill u = (v : ℤ)

/-- Fueled evaluation of the sparse linear system `(I - T) · flow = rain`
solved by `calc_flow` (rain is `1/n` at every vertex, and `T` transfers each
vertex's full flow to its downhill neighbour), i.e. of
`flow[v] = 1/n + Σ_{downhill[u] = v} flow[u]`.  When the downhill field
strictly decreases elevation — always the case for a field computed by
`calc_downhill` — the recursion stabilizes at fuel `n` and is the unique
solution of the system. -/
def MapState.solveFlowF (s : MapState α) : ℕ → ℕ → α
  | 0, _ => 0
  | fuel + 1, v => 1 / (s.n : α) + ∑ u in s.upstream v, s.solveFlowF fuel u

/-- The `calc_flow` method: solve the linear system, then zero out the flow at
every vertex at or below sea level. -/
def MapState.calc_flow (s : MapState α) : MapState α :=
  { s with flow := fun v => if s.elevation v ≤ 0 then 0 else s.solveFlowF s.n v }

/-- The number of vertices strictly higher than `v`; upstream vertices have
strictly smaller rank. -/
def MapState.elevRank (s : MapState α) (v : ℕ) : ℕ :=
  ((Finset.range s.n).filter fun w => s.elevation v < s.elevation w).card

/-- The downhill field sends each vertex to a strictly lower one (as
established by `calc_downhill`; stated on the raw field so it can be assumed
of a state). -/
def DownhillLowers (s : MapState α) : Prop :=
  ∀ u, u < s.n → 0 ≤ s.downhill u → s.elevation ((s.downhill u).toNat) < s.elevation u

theorem upstream_mem (s : MapState α) {u v : ℕ} (h : u ∈ s.upstream v) :
    u < s.n ∧ s.downhill u = (v : ℤ) := by
  simpa [MapState.upstream] using h

theorem upstream_elev_lt (s : MapState α) (hlow : DownhillLowers s) {u v : ℕ}
    (h : u ∈ s.upstream v) : s.elevation v < s.elevation u := by
  obtain ⟨hu, hdh⟩ := upstream_mem s h
  have := hlow u hu (by rw [hdh]; exact Int.natCast_nonneg v)
  rwa [hdh, Int.toNat_natCast] at this

theorem upstream_rank_lt (s : MapState α) (hlow : DownhillLowers s) {u v : ℕ}
    (h : u ∈ s.upstream v) : s.elevRank u < s.elevRank v := by
  obtain ⟨hu, _⟩ := upstream_mem s h
  have hev := upstream_elev_lt s hlow h
  apply Finset.card_lt_card
  constructor
  · intro w hw
    simp only [Finset.mem_filter, Finset.mem_range] at hw ⊢
    exact ⟨hw.1, lt_trans hev hw.2⟩
  · intro hsub
    have : u ∈ (Finset.range s.n).filter fun w => s.elevation u < s.elevation w :=
      hsub (by simp only [Finset.mem_filter, Finset.mem_range]; exact ⟨hu, hev⟩)
    simp only [Finset.mem_filter] at this
    exact lt_irrefl _ this.2

theorem elevRank_lt_n (s : MapState α) {v : ℕ} (hv : v < s.n) : s.elevRank v < s.n := by
  have : ((Finset.range s.n).filter fun w => s.elevation v < s.elevation w) ⊂
      Finset.range s.n := by
    constructor
    · exact Finset.filter_subset _ _
    · intro hsub
      have := hsub (Finset.mem_range.mpr hv)
      simp only [Finset.mem_filter] at this
      exact lt_irrefl _ this.2
  simpa [MapState.elevRank] using Finset.card_lt_card this

theorem solveFlowF_stable (s : MapState α) (hlow : DownhillLowers s) :
    ∀ f1 f2 v, s.elevRank v < f1 → s.elevRank v < f2 →
      s.solveFlowF f1 v = s.solveFlowF f2 v := by
  intro f1
  induction f1 with
  | zero => intro f2 v h1 _; exact absurd h1 (Nat.not_lt_zero _)
  | succ f1 ih =>
    intro f2 v h1 h2
    match f2, h2 with
    | f2 + 1, h2 =>
      show (1 : α) / (s.n : α) + _ = 1 / (s.n : α) + _
      refine congrArg _ (Finset.sum_congr rfl fun u hu => ?_)
      have hr := upstream_rank_lt s hlow hu
      exact ih f2 u (by omega) (by omega)

/-- Claim C4: after `calc_flow()`, the flow field solves the sparse linear
system `(I - T) · flow = rain` with `rain = 1/n` everywhere — at every land
vertex, `flow[v] = 1/n + Σ` of the flow over the vertices whose downhill is
`v` — and the flow is zero at every vertex with `elevation ≤ 0`. -/
theorem claim_C4_calc_flow (s : MapState α) (hlow : DownhillLowers s) :
    (∀ v, v < s.n → 0 < s.elevation v →
      (s.calc_flow).flow v = 1 / (s.n : α) + ∑ u in s.upstream v, (s.calc_flow).flow u) ∧
    (∀ v, v < s.n → s.elevation v ≤ 0 → (s.calc_flow).flow v = 0) := by
  constructor
  · intro v hv hland
    have hn : ∃ m, s.n = m + 1 := ⟨s.n - 1, by omega⟩
    obtain ⟨m, hm⟩ := hn
    show (if s.elevation v ≤ 0 then 0 else s.solveFlowF s.n v) = _
    rw [if_neg (not_le.mpr hland)]
    conv_lhs => rw [hm]
    show (1 : α) / (s.n : α) + ∑ u in s.upstream v, s.solveFlowF m u = _
    refine congrArg _ (Finset.sum_congr rfl fun u hu => ?_)
    have huland : 0 < s.elevation u := lt_trans hland (upstream_elev_lt s hlow hu)
    show s.solveFlowF m u = (if s.elevation u ≤ 0 then 0 else s.solveFlowF s.n u)
    rw [if_neg (not_le.mpr huland)]
    have hru : s.elevRank u < s.elevRank v := upstream_rank_lt s hlow hu
    have hrv : s.elevRank v < s.n := elevRank_lt_n s hv
    exact solveFlowF_stable s hlow m s.n u (by omega) (by omega)
  · intro v _ hsea
    show (if s.elevation v ≤ 0 then 0 else s.solveFlowF s.n v) = 0
    rw [if_pos hsea]

/-- A concrete rational state whose downhill field strictly descends:
elevations `[2, 1, -1]` with downhill `[1, 2, -1]` (vertex 2 is sea). -/
def sW3 : MapState ℚ where
  n := 3
  adj := fun u i =>
    if u = 0 then 1 else if u = 1 then (if i = 0 then 0 else 2) else 1
  vxs := fun u => ((u : ℚ), 0)
  edge := fun _ => false
  elevation := fun u => if u = 0 then 2 else if u = 1 then 1 else if u = 2 then -1 else 0
  downhill := fun u => if u = 0 then 1 else if u = 1 then 2 else -1
  flow := fun _ => 0
  slope := fun _ => 0
  territories := fun _ => -1
  cities := []
  forests := ∅
  city_score := fun _ => 0
  forest_score := fun _ => 0
  path_cache := []
  regions := []
  elevation_pts := fun _ => 0

theorem claim_C4_witness :
    DownhillLowers sW3 ∧
      (∀ v, v < sW3.n → 0 < sW3.elevation v →
        (sW3.calc_flow).flow v =
          1 / (sW3.n : ℚ) + ∑ u in sW3.upstream v, (sW3.calc_flow).flow u) ∧
      (∀ v, v < sW3.n → sW3.elevation v ≤ 0 → (sW3.calc_flow).flow v = 0) := by
  refine ⟨?_, ?_⟩
  · unfold DownhillLowers
    decide
  · exact claim_C4_calc_flow sW3 (by unfold DownhillLowers; decide)

/-- `edge_weight(u, v, territory)` of terrain.py.  Endpoints are the raw
Python ints its callers pass (`fill_path_cache` passes `-1` adjacency slots
through), so every array read goes through NumPy indexing; `** 0.5` is `rt`;
the float literals `0.9` and `0.01` appear as exact rationals. -/
def MapState.edge_weight (rt : α → α) (s : MapState α) (u v : ℤ) (territory : Bool) : α :=
  let horiz := distF rt (s.vxs (npIdx s.n u)) (s.vxs (npIdx s.n v))
  let vert0 := s.elevAt v - s.elevAt u
  let vert := if vert0 < 0 then vert0 / 10 else vert0
  let d1 := 1 + (vert / horiz) ^ 2
  let d2 :=
    if territory then d1 + 100 * rt (s.flow (npIdx s.n u))
    else if s.downhill (npIdx s.n u) = v ∨ s.downhill (npIdx s.n v) = u then d1 * (9 / 10)
    else d1
  let d3 := if s.elevAt u ≤ 0 then 1 else d2
  let d4 :=
    if (decide (s.elevAt u ≤ 0) != decide (s.elevAt v ≤ 0)) = true then
      (if territory then (2000 : α) else 200)
    else d3
  horiz * d4

/-- The edge-cost model in the specification's phrasing: planar distance times
a difficulty of `1 + (verticalDelta/horizontalDistance)^2` with a negative
delta divided by 10 before squaring; a land/sea-crossing edge overrides the
difficulty to 2000 (territory) or 200 (travel); otherwise a sea source
collapses the difficulty to 1; otherwise territory edges add `100·rt(flow[u])`
and travel edges along the downhill direction get a 10% discount. -/
def edgeWeightSpec (rt : α → α) (s : MapState α) (u v : ℤ) (territory : Bool) : α :=
  let dist := distF rt (s.vxs (npIdx s.n u)) (s.vxs (npIdx s.n v))
  let delta := s.elevAt v - s.elevAt u
  let climb := if delta < 0 then delta / 10 else delta
  let slopeTerm := (climb / dist) ^ 2
  let alongDownhill := s.downhill (npIdx s.n u) = v ∨ s.downhill (npIdx s.n v) = u
  let difficulty :=
    if Xor' (s.elevAt u ≤ 0) (s.elevAt v ≤ 0) then (if territory then (2000 : α) else 200)
    else if s.elevAt u ≤ 0 then 1
    else if territory then 1 + slopeTerm + 100 * rt (s.flow (npIdx s.n u))
    else if alongDownhill then (1 - 1 / 10) * (1 + slopeTerm)
    else 1 + slopeTerm
  dist * difficulty

/-- Claim C5: for adjacent vertices, `edge_weight` computes exactly the
specification's cost model (distance times slope-difficulty, with the river
penalty on territory edges, the downhill discount on travel edges, the
sea-source collapse to 1 and the 2000/200 coastline-crossing override). -/
theorem claim_C5_edge_weight (rt : α → α) (s : MapState α) (u v : ℕ) (territory : Bool)
    (hadj : ∃ i : Fin 3, s.adj u i = (v : ℤ)) :
    s.edge_weight rt (u : ℤ) (v : ℤ) territory =
      edgeWeightSpec rt s (u : ℤ) (v : ℤ) territory := by
  clear hadj
  simp only [MapState.edge_weight, edgeWeightSpec]
  have hxiff : ((decide (s.elevAt (u : ℤ) ≤ 0) != decide (s.elevAt (v : ℤ) ≤ 0)) = true) ↔
      Xor' (s.elevAt (u : ℤ) ≤ 0) (s.elevAt (v : ℤ) ≤ 0) := by
    by_cases h1 : s.elevAt (u : ℤ) ≤ 0 <;> by_cases h2 : s.elevAt (v : ℤ) ≤ 0 <;>
      simp [h1, h2, Xor']
  by_cases hx : Xor' (s.elevAt (u : ℤ) ≤ 0) (s.elevAt (v : ℤ) ≤ 0)
  · rw [if_pos (hxiff.mpr hx), if_pos hx]
  · rw [if_neg (fun hc => hx (hxiff.mp hc)), if_neg hx]
    by_cases hu : s.elevAt (u : ℤ) ≤ 0
    · rw [if_pos hu, if_pos hu]
    · rw [if_neg hu, if_neg hu]
      cases territory
      · by_cases hd : s.downhill (npIdx s.n (u : ℤ)) = (v : ℤ) ∨
            s.downhill (npIdx s.n (v : ℤ)) = (u : ℤ)
        · simp only [Bool.false_eq_true, if_false, if_pos hd]
          ring
        · simp only [Bool.false_eq_true, if_false, if_neg hd]
      · rfl

theorem claim_C5_witness :
    (∃ i : Fin 3, sW3.adj 0 i = (1 : ℤ)) ∧
      sW3.edge_weight id (0 : ℤ) (1 : ℤ) true = edgeWeightSpec id sW3 (0 : ℤ) (1 : ℤ) true := by
  refine ⟨⟨0, by decide⟩, ?_⟩
  exact claim_C5_edge_weight id sW3 0 1 true ⟨0, by decide⟩

/-- The initial sink labels of `get_sinks` (before its closure loop): water
(`elevation <= 0`) gets `-1`; a non-boundary land vertex with no downhill is
its own sink; every other vertex starts at its downhill value. -/
def MapState.sinks0 (s : MapState α) (v : ℕ) : ℤ :=
  if s.elevation v ≤ 0 then -1
  else if s.downhill v = -1 ∧ s.edge v = false then (v : ℤ)
  else s.downhill v

/-- One pass of the closure loop in `get_sinks`:
`newsinks[~water] = sinks[sinks[~water]]` (NumPy indexing, so a `-1` label
reads entry `n - 1`), then `newsinks[sinks == -1] = -1`. -/
def MapState.sinkStep (s : MapState α) (g : ℕ → ℤ) (v : ℕ) : ℤ :=
  if g v = -1 then -1
  else if s.elevation v ≤ 0 then g v
  else g (npIdx s.n (g v))

/-- The fueled fixpoint loop of `get_sinks`; `none` when the fixpoint is not
reached within the fuel. -/
def MapState.getSinksAux (s : MapState α) : ℕ → (ℕ → ℤ) → Option (ℕ → ℤ)
  | 0, _ => none
  | fuel + 1, g =>
    if ∀ v, v < s.n → s.sinkStep g v = g v then some g
    else s.getSinksAux fuel fun v => s.sinkStep g v

/-- `get_sinks` with enough fuel for the doubling closure of an acyclic
downhill map. -/
def MapState.get_sinks (s : MapState α) : Option (ℕ → ℤ) :=
  s.getSinksAux (s.n + 2) fun v => s.sinks0 v

/-- Membership of `u` in the `edges` array of `find_lowest_sill`.  The Python
expression `(sinks[self.adj_mat] == -1) & self.adj_mat != -1` parses as
`((sinks[adj_mat] == -1) & adj_mat) != -1`: a bitwise AND of a 0/1 value with
the adjacency entry, compared against `-1` (and hence always true). -/
def MapState.sillRowB (s : MapState α) (g : ℕ → ℤ) (u : ℕ) : Bool :=
  decide (g u ≠ -1) &&
    decide (∃ i : Fin 3,
      Int.land (if g (npIdx s.n (s.adj u i)) = -1 then 1 else 0) (s.adj u i) ≠ -1)

/-- The inner scan of `find_lowest_sill` over the real neighbours of one row
vertex `u`: keep the strictly lowest `max(elevation[v], elevation[u])` among
neighbours `v` outside every sink basin. -/
def sillScanRow (s : MapState α) (g : ℕ → ℤ) (u : ℕ) (acc : α × Option (ℕ × ℕ)) :
    α × Option (ℕ × ℕ) :=
  (List.finRange 3).foldl
    (fun acc i =>
      let vz := s.adj u i
      if vz = -1 then acc
      else
        let v := vz.toNat
        if g v = -1 then
          let newh := max (s.elevation v) (s.elevation u)
          if newh < acc.1 then (newh, some (u, v)) else acc
        else acc)
    acc

/-- `find_lowest_sill`: scan the candidate rows in index order starting from
`h = 10000`; `none` models the failing `assert h < 10000` (no update found). -/
def MapState.find_lowest_sill (s : MapState α) (g : ℕ → ℤ) : Option (α × ℕ × ℕ) :=
  let res := (List.range s.n).foldl
    (fun acc u => if s.sillRowB g u then sillScanRow s g u acc else acc)
    ((10000 : α), none)
  match res.2 with
  | some (u, v) => some (res.1, u, v)
  | none => none

/-- One basin-raising step of `infill`, given the sill `(h, u, v)` and sink
labels `g`: if `v` has a downhill target, bump `elevation[v]` to just above
it; then raise the whole basin of `u` to the sill height plus the
slope-preserving perturbation (`+ 0.001·(h - e)` where below the sill, and
`+ 1e-5` everywhere); finally recompute downhill. -/
def MapState.infillStep (s : MapState α) (g : ℕ → ℤ) (h : α) (u v : ℕ) : MapState α :=
  let sk := g u
  let e1 : ℕ → α := fun w =>
    if w = v ∧ s.downhill v ≠ -1 then s.elevAt (s.downhill v) + 1 / 100000
    else s.elevation w
  let e2 : ℕ → α := fun w =>
    if w < s.n ∧ g w = sk then
      (if e1 w < h then h + (1 / 1000) * (h - e1 w) else e1 w) + 1 / 100000
    else e1 w
  ({ s with elevation := e2 }).calc_downhill

/-- The `infill` loop, fueled: compute sinks, stop when none remain, else
raise the basin behind the lowest sill and repeat. -/
def infillAux : ℕ → MapState α → Option (MapState α)
  | 0, _ => none
  | fuel + 1, s =>
    match s.get_sinks with
    | none => none
    | some g =>
      if ∀ v, v < s.n → g v = -1 then some s
      else
        match s.find_lowest_sill g with
        | none => none
        | some (h, u, v) => infillAux fuel (s.infillStep g h u v)

def MapState.infill (s : MapState α) (fuel : ℕ) : Option (MapState α) :=
  infillAux fuel s

/-- `calc_slopes`: elevation drop toward the downhill neighbour over the
planar distance (plus `1e-9`), and `0` where there is no downhill. -/
def MapState.calc_slopes (s : MapState α) (rt : α → α) : MapState α :=
  { s with slope := fun v =>
      if s.downhill v = -1 then 0
      else
        (s.elevation v - s.elevAt (s.downhill v)) /
          (distF rt (s.vxs v) (s.vxs (npIdx s.n (s.downhill v))) + 1 / 1000000000) }

/-- `calc_elevation_pts`: the mean elevation of each cell's Voronoi vertices
(NumPy indexing; empty regions keep the initial 0). -/
def MapState.calc_elevation_pts (s : MapState α) : MapState α :=
  { s with elevation_pts := fun p =>
      match s.regions.get? p with
      | some r => if r = [] then 0 else (r.map fun i => s.elevAt i).sum / (r.length : α)
      | none => 0 }

/-- `finalize`: downhill, infill, downhill again, flow, slopes, per-cell
elevations.  `none` models a failed `infill`. -/
def MapState.finalize (s : MapState α) (rt : α → α) (fuel : ℕ) : Option (MapState α) :=
  match (s.calc_downhill).infill fuel with
  | none => none
  | some s2 => some (((s2.calc_downhill.calc_flow).calc_slopes rt).calc_elevation_pts)

theorem sinkStep_self (s : MapState α) (g : ℕ → ℤ) (v : ℕ)
    (hland : 0 < s.elevation v) (hg : g v = (v : ℤ)) : s.sinkStep g v = (v : ℤ) := by
  unfold MapState.sinkStep
  rw [if_neg (by omega : ¬ g v = -1), if_neg (not_le.mpr hland), hg]
  have : npIdx s.n (v : ℤ) = v := by
    simp [npIdx]
  rw [this, hg]

theorem getSinksAux_self (s : MapState α) (v : ℕ) (hland : 0 < s.elevation v) :
    ∀ fuel g r, g v = (v : ℤ) → s.getSinksAux fuel g = some r → r v = (v : ℤ) := by
  intro fuel
  induction fuel with
  | zero =>
    intro g r _ h
    exact absurd h (by simp [MapState.getSinksAux])
  | succ fuel ih =>
    intro g r hg h
    unfold MapState.getSinksAux at h
    by_cases hfix : ∀ w, w < s.n → s.sinkStep g w = g w
    · rw [if_pos hfix] at h
      injection h with h
      rw [← h]
      exact hg
    · rw [if_neg hfix] at h
      exact ih _ r (sinkStep_self s g v hland hg) h

/-- If `get_sinks` reports no sinks, then every non-boundary land vertex has a
downhill target; this is the loop-exit condition of `infill`. -/
theorem sinks_clear_no_local_min (s : MapState α) (g : ℕ → ℤ)
    (hgs : s.get_sinks = some g) (hclear : ∀ v, v < s.n → g v = -1)
    (v : ℕ) (hv : v < s.n) (hland : 0 < s.elevation v) (hedge : s.edge v = false) :
    s.downhill v ≠ -1 := by
  intro hdw
  have h0 : s.sinks0 v = (v : ℤ) := by
    unfold MapState.sinks0
    rw [if_neg (not_le.mpr hland), if_pos ⟨hdw, hedge⟩]
  have hvv := getSinksAux_self s v hland (s.n + 2) _ g h0 hgs
  have hneg := hclear v hv
  omega

/-- The downhill field equals what `calc_downhill` would recompute from the
current elevations — the invariant `infill` maintains. -/
def DownhillEq (s : MapState α) : Prop :=
  ∀ u, s.downhill u = s.calcDownhillFn u

theorem calc_downhill_downhillEq (s : MapState α) : DownhillEq s.calc_downhill :=
  fun _ => rfl

theorem infillAux_post : ∀ (fuel : ℕ) (s s2 : MapState α), infillAux fuel s = some s2 →
    (DownhillEq s → DownhillEq s2) ∧
      ∃ g, s2.get_sinks = some g ∧ ∀ v, v < s2.n → g v = -1 := by
  intro fuel
  induction fuel with
  | zero =>
    intro s s2 h
    exact absurd h (by simp [infillAux])
  | succ fuel ih =>
    intro s s2 h
    unfold infillAux at h
    cases hgs : s.get_sinks with
    | none =>
      rw [hgs] at h
      simp at h
    | some g =>
      rw [hgs] at h
      dsimp only at h
      by_cases hclear : ∀ v, v < s.n → g v = -1
      · rw [if_pos hclear] at h
        injection h with h
        subst h
        exact ⟨fun hde => hde, g, hgs, hclear⟩
      · rw [if_neg hclear] at h
        cases hfls : s.find_lowest_sill g with
        | none =>
          rw [hfls] at h
          simp at h
        | some t =>
          obtain ⟨th, tu, tv⟩ := t
          rw [hfls] at h
          dsimp only at h
          obtain ⟨hd, hrest⟩ := ih (s.infillStep g th tu tv) s2 h
          exact ⟨fun _ => hd (calc_downhill_downhillEq _), hrest⟩

/-- Claim C1: after `finalize()` completes, every non-boundary vertex with
positive elevation has a downhill target (`downhill ≠ -1`): `infill` only
returns once `get_sinks` reports no sinks, and the final `calc_downhill`
recomputes the same field. -/
theorem claim_C1_depression_free (s : MapState α) (rt : α → α) (fuel : ℕ)
    (s2 : MapState α) (h : s.finalize rt fuel = some s2) :
    ∀ v, v < s2.n → 0 < s2.elevation v → s2.edge v = false → s2.downhill v ≠ -1 := by
  unfold MapState.finalize at h
  cases hif : (s.calc_downhill).infill fuel with
  | none =>
    rw [hif] at h
    simp at h
  | some t =>
    rw [hif] at h
    dsimp only at h
    injection h with h
    obtain ⟨hde, g, hgs, hclear⟩ := infillAux_post fuel _ t hif
    have hdeq : DownhillEq t := hde (calc_downhill_downhillEq s)
    intro v hv hland hedge
    have hv' : v < t.n := by rw [← h] at hv; exact hv
    have hland' : 0 < t.elevation v := by rw [← h] at hland; exact hland
    have hedge' : t.edge v = false := by rw [← h] at hedge; exact hedge
    have hne := sinks_clear_no_local_min t g hgs hclear v hv' hland' hedge'
    have hsd : s2.downhill v = t.calcDownhillFn v := by rw [← h]; rfl
    rw [hsd, ← hdeq v]
    exact hne

/-- The fully finalized concrete state: `finalize` on `sW3` succeeds without
any infill iteration (its only depression-free land chain is `0 → 1 → 2`,
with vertex 2 at sea level). -/
def sW3fin : MapState ℚ :=
  (((sW3.calc_downhill.calc_downhill).calc_flow).calc_slopes id).calc_elevation_pts

theorem claim_C1_witness :
    sW3.finalize id 1 = some sW3fin ∧ (0 : ℕ) < sW3fin.n ∧ 0 < sW3fin.elevation 0 ∧
      sW3fin.edge 0 = false ∧ sW3fin.downhill 0 ≠ -1 := by
  have hfin : sW3.finalize id 1 = some sW3fin := by rfl
  refine ⟨hfin, by decide, by decide, by decide, ?_⟩
  exact claim_C1_depression_free sW3 id 1 sW3fin hfin 0 (by decide) (by decide) (by decide)

/-- `np.argmax` over the first `n` entries of `f`: the first index attaining
the maximum (0 for an empty array, whose real counterpart raises). -/
def argmaxFn (n : ℕ) (f : ℕ → α) : ℕ :=
  (List.range n).foldl (fun best u => if f u ≤ f best then best else u) 0

theorem argmaxFn_le (n : ℕ) (f : ℕ → α) : argmaxFn n f ≤ n := by
  unfold argmaxFn
  have hstep : ∀ l : List ℕ, (∀ u ∈ l, u < n) → ∀ a, a ≤ n →
      l.foldl (fun best u => if f u ≤ f best then best else u) a ≤ n := by
    intro l
    induction l with
    | nil => intro _ a ha; exact ha
    | cons x xs ih =>
      intro hl a ha
      refine ih (fun u hu => hl u (List.mem_cons_of_mem _ hu)) _ ?_
      by_cases hfx : f x ≤ f a
      · simpa [hfx] using ha
      · simp only [hfx, if_false]
        exact (hl x (List.mem_cons_self _ _)).le
  exact hstep _ (fun u hu => List.mem_range.mp hu) 0 (Nat.zero_le n)

/-- One iteration of the `place_cities` loop: take the argmax of the score,
accept it as a city when the random draw passes the `(k+1) ** -0.2` threshold
(`thr`) and the position lies strictly inside the `0.05 .. 0.95` box, then
subtract the decaying distance penalty from the whole score field.  `rnd` is
the stream of `np.random.random()` draws and `ctr` the next stream index. -/
def placeCitiesBody (rt : α → α) (rnd thr : ℕ → α) (s : MapState α) (ctr : ℕ) :
    MapState α × ℕ :=
  let newcity := argmaxFn s.n s.city_score
  let accept :=
    rnd ctr < thr s.cities.length ∧
      (1 / 20 : α) < (s.vxs newcity).1 ∧ (s.vxs newcity).1 < 19 / 20 ∧
      (1 / 20 : α) < (s.vxs newcity).2 ∧ (s.vxs newcity).2 < 19 / 20
  let cities1 := if accept then s.cities ++ [newcity] else s.cities
  let score1 := fun v =>
    s.city_score v - 1 / 100 * 1 / (distF rt (s.vxs v) (s.vxs newcity) + 1 / 1000000000)
  ({ s with cities := cities1, city_score := score1 }, ctr + 1)

/-- The `while len(self.cities) < n` loop of `place_cities`, fueled.  There is
no pool-exhaustion break: the loop only exits with the quota met. -/
def placeCitiesLoop (rt : α → α) (rnd thr : ℕ → α) (quota : ℕ) :
    ℕ → MapState α → ℕ → Option (MapState α)
  | 0, s, _ => if quota ≤ s.cities.length then some s else none
  | fuel + 1, s, ctr =>
    if quota ≤ s.cities.length then some s
    else
      placeCitiesLoop rt rnd thr quota fuel (placeCitiesBody rt rnd thr s ctr).1
        (placeCitiesBody rt rnd thr s ctr).2

/-- `place_cities(n)`: score by `sqrt(flow)` with sea vertices at `-9999999`,
reset the city list, then loop. -/
def MapState.place_cities (s : MapState α) (rt : α → α) (rnd thr : ℕ → α)
    (quota fuel : ℕ) : Option (MapState α) :=
  placeCitiesLoop rt rnd thr quota fuel
    { s with
      city_score := fun v => if s.elevation v ≤ 0 then -9999999 else rt (s.flow v),
      cities := [] }
    0

/-- The `while len(self.forests) < n` loop of `place_forests`, fueled; the
quota is a float (`2^sizemap * n / 100`).  The loop breaks off returning the
current state when the best remaining score is the `-9999999` sentinel;
otherwise the chosen vertex is permanently disqualified and, when accepted,
all its containing Voronoi regions' vertex ids join the forest set. -/
def placeForestsLoop (rnd thr : ℕ → α) (quota : α) :
    ℕ → MapState α → ℕ → Option (MapState α)
  | 0, s, _ => if (s.forests.card : α) < quota then none else some s
  | fuel + 1, s, ctr =>
    if (s.forests.card : α) < quota then
      let newf := argmaxFn s.n s.forest_score
      if s.forest_score newf = -9999999 then some s
      else
        let score1 := Function.update s.forest_score newf (-9999999)
        let accept :=
          rnd ctr < thr s.forests.card ∧
            (0 : α) < (s.vxs newf).1 ∧ (s.vxs newf).1 < 1 ∧
            (0 : α) < (s.vxs newf).2 ∧ (s.vxs newf).2 < 1
        let forests1 :=
          if accept then
            s.forests ∪ ((s.regions.filter fun r => (newf : ℤ) ∈ r).join).toFinset
          else s.forests
        placeForestsLoop rnd thr quota fuel
          { s with forest_score := score1, forests := forests1 } (ctr + 1)
    else some s

/-- `place_forests(n)`: rescale the quota, score by `sqrt(flow)` with sea at
`-9999999`, reset the forest set, then loop. -/
def MapState.place_forests (s : MapState α) (rt : α → α) (rnd thr : ℕ → α)
    (nreq fuel : ℕ) : Option (MapState α) :=
  placeForestsLoop rnd thr (((2 ^ sizemap * nreq : ℕ) : α) / 100) fuel
    { s with
      forest_score := fun v => if s.elevation v ≤ 0 then -9999999 else rt (s.flow v),
      forests := ∅ }
    0

/-- When no vertex position qualifies for the central box, the
`place_cities` loop can never accept a candidate and never returns. -/
theorem placeCitiesLoop_stuck (rt : α → α) (rnd thr : ℕ → α) (quota : ℕ) :
    ∀ fuel (s : MapState α) (ctr : ℕ),
      (∀ v, ¬((1 / 20 : α) < (s.vxs v).1 ∧ (s.vxs v).1 < 19 / 20 ∧
        (1 / 20 : α) < (s.vxs v).2 ∧ (s.vxs v).2 < 19 / 20)) →
      s.cities.length < quota → placeCitiesLoop rt rnd thr quota fuel s ctr = none := by
  intro fuel
  induction fuel with
  | zero =>
    intro s ctr _ hlen
    unfold placeCitiesLoop
    rw [if_neg (Nat.not_le.mpr hlen)]
  | succ fuel ih =>
    intro s ctr hbox hlen
    unfold placeCitiesLoop
    rw [if_neg (Nat.not_le.mpr hlen)]
    have hcadd : (placeCitiesBody rt rnd thr s ctr).1.cities = s.cities := by
      unfold placeCitiesBody
      simp only
      rw [if_neg fun hacc => hbox _ hacc.2]
    refine ih (placeCitiesBody rt rnd thr s ctr).1 (placeCitiesBody rt rnd thr s ctr).2
      ?_ ?_
    · intro v
      exact hbox v
    · rw [hcadd]
      exact hlen

/-- The `place_cities` loop only ever exits with the quota met exactly. -/
theorem placeCitiesLoop_quota (rt : α → α) (rnd thr : ℕ → α) (quota : ℕ) :
    ∀ fuel (s : MapState α) (ctr : ℕ) (s2 : MapState α), s.cities.length ≤ quota →
      placeCitiesLoop rt rnd thr quota fuel s ctr = some s2 →
      s2.cities.length = quota := by
  intro fuel
  induction fuel with
  | zero =>
    intro s ctr s2 hle h
    unfold placeCitiesLoop at h
    by_cases hq : quota ≤ s.cities.length
    · rw [if_pos hq] at h
      injection h with h
      rw [← h]
      omega
    · rw [if_neg hq] at h
      cases h
  | succ fuel ih =>
    intro s ctr s2 hle h
    unfold placeCitiesLoop at h
    by_cases hq : quota ≤ s.cities.length
    · rw [if_pos hq] at h
      injection h with h
      rw [← h]
      omega
    · rw [if_neg hq] at h
      refine ih _ _ s2 ?_ h
      unfold placeCitiesBody
      simp only
      by_cases hacc : rnd ctr < thr s.cities.length ∧
          (1 / 20 : α) < (s.vxs (argmaxFn s.n s.city_score)).1 ∧
          (s.vxs (argmaxFn s.n s.city_score)).1 < 19 / 20 ∧
          (1 / 20 : α) < (s.vxs (argmaxFn s.n s.city_score)).2 ∧
          (s.vxs (argmaxFn s.n s.city_score)).2 < 19 / 20
      · rw [if_pos hacc]
        simp only [List.length_append, List.length_cons, List.length_nil]
        omega
      · rw [if_neg hacc]
        omega

/-- The number of non-disqualified score slots (over `range (n+1)`, covering
the degenerate `argmax` of an empty array). -/
def forestMeasure (s : MapState α) : ℕ :=
  ((Finset.range (s.n + 1)).filter fun v => s.forest_score v ≠ -9999999).card

/-- The `place_forests` loop always terminates once the fuel exceeds the
measure: each non-breaking iteration permanently disqualifies a fresh slot. -/
theorem placeForestsLoop_total (rnd thr : ℕ → α) (quota : α) :
    ∀ fuel (s : MapState α) (ctr : ℕ), forestMeasure s < fuel →
      (placeForestsLoop rnd thr quota fuel s ctr).isSome = true := by
  intro fuel
  induction fuel with
  | zero =>
    intro s ctr hm
    exact absurd hm (Nat.not_lt_zero _)
  | succ fuel ih =>
    intro s ctr hm
    unfold placeForestsLoop
    by_cases hq : (s.forests.card : α) < quota
    · rw [if_pos hq]
      by_cases hsent : s.forest_score (argmaxFn s.n s.forest_score) = -9999999
      · rw [if_pos hsent]
        rfl
      · rw [if_neg hsent]
        simp only
        set newf := argmaxFn s.n s.forest_score with hnf
        have hmem : newf ∈ (Finset.range (s.n + 1)).filter
            fun v => s.forest_score v ≠ -9999999 := by
          simp only [Finset.mem_filter, Finset.mem_range]
          exact ⟨Nat.lt_succ_of_le (argmaxFn_le s.n s.forest_score), hsent⟩
        have hcard : ∀ forests1,
            forestMeasure { s with
              forest_score := Function.update s.forest_score newf (-9999999),
              forests := forests1 } < forestMeasure s := by
          intro forests1
          unfold forestMeasure
          simp only
          apply Finset.card_lt_card
          constructor
          · intro w hw
            simp only [Finset.mem_filter, Finset.mem_range] at hw ⊢
            refine ⟨hw.1, ?_⟩
            intro hwv
            by_cases hwn : w = newf
            · rw [hwn] at hw
              exact hw.2 (by simp [Function.update])
            · rw [Function.update_noteq hwn] at hw
              exact hw.2 hwv
          · intro hsub
            have := hsub hmem
            simp only [Finset.mem_filter, Finset.mem_range] at this
            exact this.2 (by simp [Function.update])
        refine ih _ (ctr + 1) ?_
        exact lt_of_lt_of_le (hcard _) (by omega)
    · rw [if_neg hq]
      rfl

/-- Claim C10 (amended): `place_forests` always terminates normally — fuel
beyond `n + 1` iterations suffices even when the candidate pool is exhausted
before the quota, the break on the `-9999999` sentinel stopping it early with
fewer forests; `place_cities`, however, has no exhaustion check: whenever it
returns at all, it has placed exactly the requested number of cities (on an
exhausted pool it simply never returns). -/
theorem claim_C10_placement_exhaustion (rt : α → α) (rnd thr : ℕ → α) :
    (∀ (s : MapState α) (nreq fuel : ℕ), s.n + 2 ≤ fuel →
      (s.place_forests rt rnd thr nreq fuel).isSome = true) ∧
    (∀ (s s2 : MapState α) (quota fuel : ℕ),
      s.place_cities rt rnd thr quota fuel = some s2 → s2.cities.length = quota) := by
  constructor
  · intro s nreq fuel hfuel
    apply placeForestsLoop_total
    calc forestMeasure _ ≤ s.n + 1 := by
          apply le_trans (Finset.card_filter_le _ _)
          simp
      _ < fuel := by omega
  · intro s s2 quota fuel h
    exact placeCitiesLoop_quota rt rnd thr quota fuel _ 0 s2 (by simp) h

/-- `place_cities` never returns, whatever the fuel. -/
def PlaceCitiesNeverReturns (s : MapState α) (rt : α → α) (rnd thr : ℕ → α)
    (quota : ℕ) : Prop :=
  ∀ fuel, s.place_cities rt rnd thr quota fuel = none

/-- Claim C10 counterexample: on a state with every vertex outside the
central placement box (an exhausted candidate pool) and a quota of one city,
`place_cities` does not stop early with fewer cities — it never returns at
all, for any fuel. -/
theorem claim_C10_counterexample :
    (∀ v, ¬((1 / 20 : ℚ) < (sW3.vxs v).1 ∧ (sW3.vxs v).1 < 19 / 20 ∧
      (1 / 20 : ℚ) < (sW3.vxs v).2 ∧ (sW3.vxs v).2 < 19 / 20)) ∧
      PlaceCitiesNeverReturns sW3 id (fun _ => 0) (fun _ => 1) 1 := by
  have hbox : ∀ v, ¬((1 / 20 : ℚ) < (sW3.vxs v).1 ∧ (sW3.vxs v).1 < 19 / 20 ∧
      (1 / 20 : ℚ) < (sW3.vxs v).2 ∧ (sW3.vxs v).2 < 19 / 20) := by
    intro v hc
    have h2 : (sW3.vxs v).2 = 0 := rfl
    rw [h2] at hc
    norm_num at hc
  refine ⟨hbox, fun fuel => ?_⟩
  unfold MapState.place_cities
  apply placeCitiesLoop_stuck
  · intro v
    exact hbox v
  · simp

/-- The state `place_cities(0)` immediately returns on `sW2`. -/
def sW2cityOut : MapState ℚ :=
  { sW2 with
    city_score := fun v => if sW2.elevation v ≤ 0 then -9999999 else id (sW2.flow v),
    cities := [] }

theorem claim_C10_witness :
    (sW3.n + 2 ≤ 5 ∧ (sW3.place_forests id (fun _ => 0) (fun _ => 1) 1 5).isSome = true) ∧
      (sW2.place_cities id (fun _ => 0) (fun _ => 1) 0 0 = some sW2cityOut ∧
        sW2cityOut.cities.length = 0) := by
  refine ⟨⟨by decide, ?_⟩, rfl, ?_⟩
  · exact (claim_C10_placement_exhaustion id (fun _ => 0) (fun _ => 1)).1 sW3 1 5 (by decide)
  · exact (claim_C10_placement_exhaustion id (fun _ => 0) (fun _ => 1)).2 sW2 sW2cityOut 0 0 rfl

/-- `heapq.heappop` on a list model of the heap: remove the least element
under the linear order of the key `κ` (Python tuple comparison). -/
def popMinBy {T β : Type} [LinearOrder β] (κ : T → β) : List T → Option (T × List T)
  | [] => none
  | x :: xs =>
    match popMinBy κ xs with
    | none => some (x, xs)
    | some (m, rest) => if κ m < κ x then some (m, x :: rest) else some (x, xs)

theorem popMinBy_nil_iff {T β : Type} [LinearOrder β] (κ : T → β) (l : List T) :
    popMinBy κ l = none ↔ l = [] := by
  cases l with
  | nil => simp [popMinBy]
  | cons x xs =>
    simp only [popMinBy]
    constructor
    · intro h
      cases hm : popMinBy κ xs with
      | none => rw [hm] at h; cases h
      | some p => rw [hm] at h; dsimp only at h; split at h <;> cases h
    · intro h
      cases h

theorem popMinBy_perm {T β : Type} [LinearOrder β] (κ : T → β) :
    ∀ (l : List T) (e : T) (rest : List T), popMinBy κ l = some (e, rest) →
      l.Perm (e :: rest) := by
  intro l
  induction l with
  | nil => intro e rest h; cases h
  | cons x xs ih =>
    intro e rest h
    simp only [popMinBy] at h
    cases hm : popMinBy κ xs with
    | none =>
      rw [hm] at h
      injection h with h
      rw [Prod.mk.injEq] at h
      rw [← h.1, ← h.2]
    | some p =>
      obtain ⟨m, mrest⟩ := p
      rw [hm] at h
      dsimp only at h
      by_cases hlt : κ m < κ x
      · rw [if_pos hlt] at h
        injection h with h
        rw [Prod.mk.injEq] at h
        rw [← h.1, ← h.2]
        exact ((ih m mrest hm).cons x).trans (List.Perm.swap m x mrest)
      · rw [if_neg hlt] at h
        injection h with h
        rw [Prod.mk.injEq] at h
        rw [← h.1, ← h.2]

theorem popMinBy_min {T β : Type} [LinearOrder β] (κ : T → β) :
    ∀ (l : List T) (e : T) (rest : List T), popMinBy κ l = some (e, rest) →
      ∀ y ∈ l, κ e ≤ κ y := by
  intro l
  induction l with
  | nil => intro e rest h; cases h
  | cons x xs ih =>
    intro e rest h y hy
    simp only [popMinBy] at h
    cases hm : popMinBy κ xs with
    | none =>
      rw [hm] at h
      injection h with h
      rw [Prod.mk.injEq] at h
      rw [← h.1]
      have hxs : xs = [] := (popMinBy_nil_iff κ xs).mp hm
      subst hxs
      rcases List.mem_cons.mp hy with rfl | hmem
      · exact le_refl _
      · cases hmem
    | some p =>
      obtain ⟨m, mrest⟩ := p
      rw [hm] at h
      dsimp only at h
      by_cases hlt : κ m < κ x
      · rw [if_pos hlt] at h
        injection h with h
        rw [Prod.mk.injEq] at h
        rw [← h.1]
        rcases List.mem_cons.mp hy with rfl | hmem
        · exact hlt.le
        · exact ih m mrest hm y hmem
      · rw [if_neg hlt] at h
        injection h with h
        rw [Prod.mk.injEq] at h
        rw [← h.1]
        rcases List.mem_cons.mp hy with rfl | hmem
        · exact le_refl _
        · exact le_trans (not_lt.mp hlt) (ih m mrest hm y hmem)

/-- The lexicographic key of a `(dist, vx, city)` heap tuple. -/
def key3 (e : α × ℕ × ℕ) : Lex (α × Lex (ℕ × ℕ)) :=
  toLex (e.1, toLex (e.2.1, e.2.2))

/-- The neighbour entries one claimed vertex pushes in `grow_territory`:
unclaimed real neighbours `u` of `vx`, at priority
`dist + edge_weight(u, vx, territory=True)`. -/
def growPushes (rt : α → α) (s : MapState α) (done1 : ℕ → ℤ) (dist : α) (vx city : ℕ) :
    List (α × ℕ × ℕ) :=
  (List.finRange 3).filterMap fun i =>
    if s.adj vx i = -1 then none
    else if done1 (s.adj vx i).toNat ≠ -1 then none
    else some (dist + s.edge_weight rt (s.adj vx i) (vx : ℤ) true, (s.adj vx i).toNat, city)

theorem growPushes_mem (rt : α → α) (s : MapState α) (done1 : ℕ → ℤ) (dist : α)
    (vx city : ℕ) :
    ∀ e ∈ growPushes rt s done1 dist vx city, ∃ i : Fin 3,
      s.adj vx i ≠ -1 ∧ done1 (s.adj vx i).toNat = -1 ∧
      e = (dist + s.edge_weight rt (s.adj vx i) (vx : ℤ) true, (s.adj vx i).toNat, city) := by
  intro e he
  obtain ⟨i, _, hfi⟩ := List.mem_filterMap.mp he
  refine ⟨i, ?_⟩
  by_cases h1 : s.adj vx i = -1
  · rw [if_pos h1] at hfi; cases hfi
  · rw [if_neg h1] at hfi
    by_cases h2 : done1 (s.adj vx i).toNat ≠ -1
    · rw [if_pos h2] at hfi; cases hfi
    · rw [if_neg h2] at hfi
      injection hfi with hfi
      exact ⟨h1, not_not.mp h2, hfi.symm⟩

theorem growPushes_mem_of (rt : α → α) (s : MapState α) (done1 : ℕ → ℤ) (dist : α)
    (vx city : ℕ) (i : Fin 3) (h1 : s.adj vx i ≠ -1)
    (h2 : done1 (s.adj vx i).toNat = -1) :
    (dist + s.edge_weight rt (s.adj vx i) (vx : ℤ) true, (s.adj vx i).toNat, city) ∈
      growPushes rt s done1 dist vx city := by
  apply List.mem_filterMap.mpr
  exact ⟨i, List.mem_finRange i, by rw [if_neg h1, if_neg (not_not.mpr h2)]⟩

/-- The `grow_territory` wavefront loop, fueled: pop the least tuple, skip
already-claimed vertices, claim the vertex for the popped city, and push its
unclaimed real neighbours. -/
def growLoop (rt : α → α) (s : MapState α) :
    ℕ → (ℕ → ℤ) → List (α × ℕ × ℕ) → Option (ℕ → ℤ)
  | 0, done, q => if q = [] then some done else none
  | fuel + 1, done, q =>
    match popMinBy key3 q with
    | none => some done
    | some ((dist, vx, city), rest) =>
      if done vx ≠ -1 then growLoop rt s fuel done rest
      else
        growLoop rt s fuel (Function.update done vx (city : ℤ))
          (rest ++ growPushes rt s (Function.update done vx (city : ℤ)) dist vx city)

/-- `grow_territory(n)`: seed the heap with the first `n` cities at distance
0 owned by themselves, run the wavefront, store the claim map as
`territories`. -/
def MapState.grow_territory (s : MapState α) (rt : α → α) (k fuel : ℕ) :
    Option (MapState α) :=
  (growLoop rt s fuel (fun _ => -1) ((s.cities.take k).map fun c => ((0 : α), c, c))).map
    fun done => { s with territories := done }

/-- Reachability from the seed set through real adjacency slots. -/
inductive ReachAdj (s : MapState α) (seeds : List ℕ) : ℕ → Prop
  | seed (c : ℕ) : c ∈ seeds → ReachAdj s seeds c
  | step (v : ℕ) (i : Fin 3) : ReachAdj s seeds v → s.adj v i ≠ -1 →
      ReachAdj s seeds ((s.adj v i).toNat)

theorem growLoop_spec (rt : α → α) (s : MapState α) (seeds : List ℕ)
    (hpos : ∀ (vx : ℕ) (i : Fin 3), s.adj vx i ≠ -1 →
      0 < s.edge_weight rt (s.adj vx i) (vx : ℤ) true) :
    ∀ (fuel : ℕ) (done : ℕ → ℤ) (q : List (α × ℕ × ℕ)) (t : ℕ → ℤ),
      growLoop rt s fuel done q = some t →
      (∀ e ∈ q, e.2.2 ∈ seeds ∧ 0 ≤ e.1) →
      (∀ e ∈ q, e.1 = 0 → e.2.1 = e.2.2) →
      (∀ v, done v ≠ -1 → ∃ c ∈ seeds, done v = (c : ℤ)) →
      (∀ c ∈ seeds, done c = (c : ℤ) ∨ (done c = -1 ∧ ((0 : α), c, c) ∈ q)) →
      (∀ v, done v ≠ -1 → ∀ i : Fin 3, s.adj v i ≠ -1 →
        done ((s.adj v i).toNat) ≠ -1 ∨ ∃ d c, (d, (s.adj v i).toNat, c) ∈ q) →
      ((∀ c ∈ seeds, t c = (c : ℤ)) ∧
        (∀ v, t v ≠ -1 → ∃ c ∈ seeds, t v = (c : ℤ)) ∧
        (∀ v, t v ≠ -1 → ∀ i : Fin 3, s.adj v i ≠ -1 → t ((s.adj v i).toNat) ≠ -1)) := by
  have hdoneq : ∀ (done t : ℕ → ℤ), done = t →
      (∀ v, done v ≠ -1 → ∃ c ∈ seeds, done v = (c : ℤ)) →
      (∀ c ∈ seeds, done c = (c : ℤ) ∨ (done c = -1 ∧ False)) →
      (∀ v, done v ≠ -1 → ∀ i : Fin 3, s.adj v i ≠ -1 →
        done ((s.adj v i).toNat) ≠ -1 ∨ False) →
      ((∀ c ∈ seeds, t c = (c : ℤ)) ∧
        (∀ v, t v ≠ -1 → ∃ c ∈ seeds, t v = (c : ℤ)) ∧
        (∀ v, t v ≠ -1 → ∀ i : Fin 3, s.adj v i ≠ -1 → t ((s.adj v i).toNat) ≠ -1)) := by
    intro done t heq hI2 hI3 hI4
    subst heq
    refine ⟨fun c hc => ?_, hI2, fun v hv i hi => ?_⟩
    · rcases hI3 c hc with h | h
      · exact h
      · exact absurd h.2 id
    · rcases hI4 v hv i hi with h | h
      · exact h
      · exact absurd h id
  intro fuel
  induction fuel with
  | zero =>
    intro done q t h hI1 hI5 hI2 hI3 hI4
    unfold growLoop at h
    by_cases hq : q = []
    · rw [if_pos hq] at h
      injection h with h
      subst hq
      refine hdoneq done t h hI2 ?_ ?_
      · intro c hc
        rcases hI3 c hc with h3 | h3
        · exact Or.inl h3
        · exact absurd h3.2 (by simp)
      · intro v hv i hi
        rcases hI4 v hv i hi with h4 | h4
        · exact Or.inl h4
        · obtain ⟨d, c, hdc⟩ := h4
          exact absurd hdc (by simp)
    · rw [if_neg hq] at h
      cases h
  | succ fuel ih =>
    intro done q t h hI1 hI5 hI2 hI3 hI4
    unfold growLoop at h
    cases hpop : popMinBy key3 q with
    | none =>
      rw [hpop] at h
      dsimp only at h
      injection h with h
      have hq : q = [] := (popMinBy_nil_iff _ q).mp hpop
      subst hq
      refine hdoneq done t h hI2 ?_ ?_
      · intro c hc
        rcases hI3 c hc with h3 | h3
        · exact Or.inl h3
        · exact absurd h3.2 (by simp)
      · intro v hv i hi
        rcases hI4 v hv i hi with h4 | h4
        · exact Or.inl h4
        · obtain ⟨d, c, hdc⟩ := h4
          exact absurd hdc (by simp)
    | some er =>
      obtain ⟨⟨dist, vx, city⟩, rest⟩ := er
      rw [hpop] at h
      dsimp only at h
      have hperm := popMinBy_perm key3 q _ _ hpop
      have hmin := popMinBy_min key3 q _ _ hpop
      have hmemq : (dist, vx, city) ∈ q := hperm.mem_iff.mpr (List.mem_cons_self _ _)
      have hrest_sub : ∀ x ∈ rest, x ∈ q := fun x hx =>
        hperm.mem_iff.mpr (List.mem_cons_of_mem _ hx)
      have hmem_rest : ∀ x ∈ q, x ≠ (dist, vx, city) → x ∈ rest := by
        intro x hx hne
        rcases List.mem_cons.mp (hperm.mem_iff.mp hx) with h1 | h2
        · exact absurd h1 hne
        · exact h2
      obtain ⟨hcity_seed, hdist_nonneg⟩ := hI1 _ hmemq
      by_cases hdone : done vx ≠ -1
      · rw [if_pos hdone] at h
        refine ih done rest t h (fun e he => hI1 e (hrest_sub e he))
          (fun e he => hI5 e (hrest_sub e he)) hI2 ?_ ?_
        · intro c hc
          rcases hI3 c hc with h3 | h3
          · exact Or.inl h3
          · refine Or.inr ⟨h3.1, hmem_rest _ h3.2 ?_⟩
            intro hEq
            have hcv : c = vx := congrArg (fun e : α × ℕ × ℕ => e.2.1) hEq
            rw [← hcv] at hdone
            exact hdone h3.1
        · intro v hv i hi
          rcases hI4 v hv i hi with h4 | h4
          · exact Or.inl h4
          · obtain ⟨d, c, hdc⟩ := h4
            by_cases hu : (s.adj v i).toNat = vx
            · rw [hu]
              exact Or.inl hdone
            · refine Or.inr ⟨d, c, hmem_rest _ hdc ?_⟩
              intro hEq
              exact hu (congrArg (fun e : α × ℕ × ℕ => e.2.1) hEq)
      · rw [if_neg hdone] at h
        have hdone0 : done vx = -1 := not_not.mp hdone
        refine ih (Function.update done vx (city : ℤ)) _ t h ?_ ?_ ?_ ?_ ?_
        · intro e he
          rcases List.mem_append.mp he with hr | hp
          · exact hI1 e (hrest_sub e hr)
          · obtain ⟨i, hi1, _, hi3⟩ := growPushes_mem rt s _ dist vx city e hp
            rw [hi3]
            refine ⟨hcity_seed, ?_⟩
            have hw := hpos vx i hi1
            dsimp only
            linarith
        · intro e he hz
          rcases List.mem_append.mp he with hr | hp
          · exact hI5 e (hrest_sub e hr) hz
          · obtain ⟨i, hi1, _, hi3⟩ := growPushes_mem rt s _ dist vx city e hp
            rw [hi3] at hz
            have hw := hpos vx i hi1
            dsimp only at hz
            exact absurd hz (by intro hzz; linarith)
        · intro v hv
          by_cases hveq : v = vx
          · subst hveq
            rw [Function.update_same]
            exact ⟨city, hcity_seed, rfl⟩
          · rw [Function.update_noteq hveq] at hv ⊢
            exact hI2 v hv
        · intro c hc
          rcases hI3 c hc with h3 | h3
          · left
            have hne : c ≠ vx := by
              intro hEq
              rw [hEq, hdone0] at h3
              omega
            rw [Function.update_noteq hne]
            exact h3
          · by_cases hveq : vx = c
            · left
              have hkey := hmin _ h3.2
              simp only [key3] at hkey
              rw [Prod.Lex.le_iff] at hkey
              have hdle : dist ≤ 0 := by
                rcases hkey with hk | hk
                · exact le_of_lt hk
                · exact le_of_eq hk.1
              have hdz : dist = 0 := le_antisymm hdle hdist_nonneg
              have hvc : vx = city := hI5 _ hmemq hdz
              rw [← hveq, Function.update_same, ← hvc]
            · right
              constructor
              · rw [Function.update_noteq fun hEq => hveq hEq.symm]
                exact h3.1
              · refine List.mem_append_left _ (hmem_rest _ h3.2 ?_)
                intro hEq
                exact hveq (congrArg (fun e : α × ℕ × ℕ => e.2.1) hEq).symm
        · intro v hv i hi
          by_cases hveq : v = vx
          · rw [hveq] at hi ⊢
            by_cases hu : Function.update done vx (city : ℤ) ((s.adj vx i).toNat) ≠ -1
            · exact Or.inl hu
            · refine Or.inr ⟨dist + s.edge_weight rt (s.adj vx i) (vx : ℤ) true, city,
                List.mem_append_right _ ?_⟩
              exact growPushes_mem_of rt s _ dist vx city i hi (not_not.mp hu)
          · have hv0 : done v ≠ -1 := by rwa [Function.update_noteq hveq] at hv
            rcases hI4 v hv0 i hi with h4 | h4
            · left
              by_cases huvx : (s.adj v i).toNat = vx
              · rw [huvx, Function.update_same]
                omega
              · rwa [Function.update_noteq huvx]
            · obtain ⟨d, c, hdc⟩ := h4
              by_cases hEq : ((d, (s.adj v i).toNat, c) : α × ℕ × ℕ) = (dist, vx, city)
              · left
                have huvx : (s.adj v i).toNat = vx :=
                  congrArg (fun e : α × ℕ × ℕ => e.2.1) hEq
                rw [huvx, Function.update_same]
                omega
              · exact Or.inr ⟨d, c, List.mem_append_left _ (hmem_rest _ hdc hEq)⟩

/-- Every vertex reachable from the seeds through adjacency ends up claimed. -/
theorem reach_claimed (s : MapState α) (seeds : List ℕ) (t : ℕ → ℤ)
    (hA : ∀ c ∈ seeds, t c = (c : ℤ))
    (hC : ∀ v, t v ≠ -1 → ∀ i : Fin 3, s.adj v i ≠ -1 → t ((s.adj v i).toNat) ≠ -1) :
    ∀ v, ReachAdj s seeds v → t v ≠ -1 := by
  intro v hv
  induction hv with
  | seed c hc =>
    rw [hA c hc]
    omega
  | step v i _ hadj ih => exact hC v ih i hadj

/-- Claim C6: after `grow_territory(k)` (positive territory edge weights,
every vertex reachable from the seeds), every vertex of the mesh is owned by
a city id present in the city list, and each of the first `k` cities owns its
own vertex. -/
theorem claim_C6_grow_territory (rt : α → α) (s : MapState α) (k fuel : ℕ)
    (s2 : MapState α) (h : s.grow_territory rt k fuel = some s2)
    (hpos : ∀ (vx : ℕ) (i : Fin 3), s.adj vx i ≠ -1 →
      0 < s.edge_weight rt (s.adj vx i) (vx : ℤ) true)
    (hreach : ∀ v, v < s.n → ReachAdj s (s.cities.take k) v) :
    (∀ v, v < s2.n → ∃ c ∈ s2.cities, s2.territories v = (c : ℤ)) ∧
      ∀ c ∈ s.cities.take k, s2.territories c = (c : ℤ) := by
  unfold MapState.grow_territory at h
  cases hgl : growLoop rt s fuel (fun _ => -1)
      ((s.cities.take k).map fun c => ((0 : α), c, c)) with
  | none =>
    rw [hgl] at h
    cases h
  | some t =>
    rw [hgl] at h
    dsimp only [Option.map] at h
    injection h with h
    have hspec := growLoop_spec rt s (s.cities.take k) hpos fuel (fun _ => -1) _ t hgl
      ?_ ?_ ?_ ?_ ?_
    · obtain ⟨hA, hB, hC⟩ := hspec
      constructor
      · intro v hv
        have hvn : v < s.n := by rw [← h] at hv; exact hv
        have hvr : ReachAdj s (s.cities.take k) v := hreach v hvn
        have hclaimed : t v ≠ -1 := reach_claimed s _ t hA hC v hvr
        obtain ⟨c, hc, hcv⟩ := hB v hclaimed
        refine ⟨c, ?_, ?_⟩
        · have hsub : s.cities.take k ⊆ s.cities := List.take_subset k s.cities
          have hcs : c ∈ s.cities := hsub hc
          rw [← h]
          exact hcs
        · rw [← h]
          exact hcv
      · intro c hc
        rw [← h]
        exact hA c hc
    · intro e he
      obtain ⟨c, hc, hce⟩ := List.mem_map.mp he
      rw [← hce]
      exact ⟨hc, le_refl 0⟩
    · intro e he _
      obtain ⟨c, _, hce⟩ := List.mem_map.mp he
      rw [← hce]
    · intro v hv
      exact absurd rfl hv
    · intro c hc
      exact Or.inr ⟨rfl, List.mem_map_of_mem _ hc⟩
    · intro v hv
      exact absurd rfl hv

/-- A one-vertex state whose single vertex is the only (capital) city. -/
def sTG : MapState ℚ where
  n := 1
  adj := fun _ _ => -1
  vxs := fun _ => (0, 0)
  edge := fun _ => false
  elevation := fun _ => 0
  downhill := fun _ => -1
  flow := fun _ => 0
  slope := fun _ => 0
  territories := fun _ => -1
  cities := [0]
  forests := ∅
  city_score := fun _ => 0
  forest_score := fun _ => 0
  path_cache := []
  regions := []
  elevation_pts := fun _ => 0

/-- The result of `grow_territory(1)` on `sTG`. -/
def sTGout : MapState ℚ := (sTG.grow_territory id 1 3).getD sTG

theorem claim_C6_witness :
    sTG.grow_territory id 1 3 = some sTGout ∧
      ((∀ v, v < sTGout.n → ∃ c ∈ sTGout.cities, sTGout.territories v = (c : ℤ)) ∧
        ∀ c ∈ sTG.cities.take 1, sTGout.territories c = (c : ℤ)) := by
  refine ⟨rfl, ?_⟩
  refine claim_C6_grow_territory id sTG 1 3 sTGout rfl ?_ ?_
  · intro vx i h
    exact absurd rfl h
  · intro v hv
    have hv0 : v = 0 := by
      have : sTG.n = 1 := rfl
      omega
    rw [hv0]
    exact ReachAdj.seed 0 (by decide)

/-- One dilation pass of `extend_area` (`area[adj_mat[area]] = True`): every
adjacency target of a flagged vertex becomes flagged. -/
def dilate (s : MapState α) (area : ℕ → Bool) : ℕ → Bool := fun v =>
  area v || (List.range s.n).any fun u =>
    area u && (List.finRange 3).any fun i =>
      decide (s.adj u i ≠ -1) && decide (npIdx s.n (s.adj u i) = v)

/-- `extend_area(area, n)`: ten dilation passes — the `n` argument is unused
in the source (`for _ in range(10)`), and the passes mutate the array that
was passed in. -/
def extendArea (s : MapState α) (area : ℕ → Bool) (nReq : ℕ) : ℕ → Bool :=
  (dilate s)^[10] area

/-- The dok-matrix writes of the routing graph of `fill_path_cache`, in
program order: for every vertex `u` an edge to each `adj_vxs` entry unless
both endpoints carry the extended boundary flag — a `-1` entry addresses
dok column `n + 1` (the bottomright anchor) and boundary flag `n - 1` —
and then the `1e-12` anchor wiring for flagged vertices on the far diagonal
halves. -/
def pathGraphWrites (rt : α → α) (s : MapState α) (edge2 : ℕ → Bool) :
    List (ℕ × ℕ × α) :=
  (List.range s.n).bind fun u =>
    ((List.finRange 3).filterMap fun i =>
      if edge2 u && edge2 (npIdx s.n (s.adj u i)) then none
      else some (u, npIdx (s.n + 2) (s.adj u i),
        s.edge_weight rt (u : ℤ) (s.adj u i) false)) ++
    (if edge2 u then
      (if (s.vxs u).1 - (s.vxs u).2 < -(1 / 2 : α) then
        [(s.n, u, (1 : α) / 10 ^ 12)] else []) ++
      (if (1 / 2 : α) < (s.vxs u).1 - (s.vxs u).2 then
        [(u, s.n + 1, (1 : α) / 10 ^ 12)] else [])
    else [])

/-- dok-matrix read: the last write to a cell wins; `none` for an untouched
cell (no edge). -/
def dokGet (writes : List (ℕ × ℕ × α)) (u v : ℕ) : Option α :=
  writes.foldl (fun acc e => if e.1 = u ∧ e.2.1 = v then some e.2.2 else acc) none

/-- The lexicographic key of a `(dist, node)` Dijkstra heap tuple. -/
def key2 (e : α × ℕ) : Lex (α × ℕ) := toLex e

/-- One single-source Dijkstra solve (modelling a row of
`scipy.sparse.csgraph.dijkstra ... return_predecessors=True`), fueled: pop
the closest unsettled node, settle it, relax its out-edges (strict
improvement updates distance and predecessor).  Returns the distance map and
predecessor array (`-9999` for unreached or source). -/
def dijkstraLoop (nn : ℕ) (g : ℕ → ℕ → Option α) :
    ℕ → List (α × ℕ) → (ℕ → Bool) → (ℕ → Option α) → (ℕ → ℤ) →
      Option ((ℕ → Option α) × (ℕ → ℤ))
  | 0, q, _, dist, preds => if q = [] then some (dist, preds) else none
  | fuel + 1, q, settled, dist, preds =>
    match popMinBy key2 q with
    | none => some (dist, preds)
    | some ((d, u), rest) =>
      if settled u then dijkstraLoop nn g fuel rest settled dist preds
      else
        let settled1 : ℕ → Bool := fun w => if w = u then true else settled w
        let relax := (List.range nn).foldl
          (fun (acc : (ℕ → Option α) × (ℕ → ℤ) × List (α × ℕ)) w =>
            match g u w with
            | none => acc
            | some wgt =>
              if settled1 w then acc
              else
                let better :=
                  match acc.1 w with
                  | none => true
                  | some dw => decide (d + wgt < dw)
                if better then
                  (fun z => if z = w then some (d + wgt) else acc.1 z,
                   fun z => if z = w then (u : ℤ) else acc.2.1 z,
                   acc.2.2 ++ [(d + wgt, w)])
                else acc)
          (dist, preds, rest)
        dijkstraLoop nn g fuel relax.2.2 settled1 relax.1 relax.2.1

def dijkstraFrom (nn : ℕ) (g : ℕ → ℕ → Option α) (src fuel : ℕ) :
    Option ((ℕ → Option α) × (ℕ → ℤ)) :=
  dijkstraLoop nn g fuel [((0 : α), src)] (fun _ => false)
    (fun w => if w = src then some 0 else none) (fun _ => -9999)

/-- The path-reconstruction loop of `fill_path_cache`
(`while p[0] != a: p.insert(0, preds[i, p[0]])`), fueled; `none` models the
IndexError on a `-9999` predecessor (unreachable destination). -/
def reconPath (preds : ℕ → ℤ) (a : ℕ) : ℕ → List ℕ → Option (List ℕ)
  | 0, _ => none
  | fuel + 1, p =>
    match p with
    | [] => none
    | x :: _ =>
      if x = a then some p
      else if preds x < 0 then none
      else reconPath preds a fuel ((preds x).toNat :: p)

/-- The cache-key renaming `"topleft" if a == n else a`. -/
def pkOf (n a : ℕ) : PKey := if a = n then PKey.topleft else PKey.v a

/-- The cache-key renaming `"bottomright" if b == n + 1 else b`. -/
def pkOfB (n b : ℕ) : PKey := if b = n + 1 then PKey.bottomright else PKey.v b

/-- Dictionary lookup in the path cache (newest entry first). -/
def cacheFind (cache : List ((PKey × PKey) × (List ℕ × α))) (k : PKey × PKey) :
    Option (List ℕ × α) :=
  (cache.find? fun e => decide (e.1 = k)).map (·.2)

/-- One cache write of `fill_path_cache`: reconstruct the path from source
`a` to destination `b`, strip non-mesh nodes, and store it with the distance
under the renamed key. -/
def cacheInsert (n : ℕ) (a : ℕ) (dist : ℕ → Option α) (preds : ℕ → ℤ) (b fuel : ℕ)
    (acc : List ((PKey × PKey) × (List ℕ × α))) :
    Option (List ((PKey × PKey) × (List ℕ × α))) :=
  match reconPath preds a fuel [b] with
  | none => none
  | some p =>
    match dist b with
    | none => none
    | some d => some (((pkOf n a, pkOfB n b), (p.filter fun x => x < n, d)) :: acc)

/-- One Dijkstra solve per source index, in order. -/
def runDijkstras (nn : ℕ) (g : ℕ → ℕ → Option α) (fuel : ℕ) :
    List ℕ → Option (List (ℕ × (ℕ → Option α) × (ℕ → ℤ)))
  | [] => some []
  | a :: rest =>
    match dijkstraFrom nn g a fuel with
    | none => none
    | some r =>
      match runDijkstras nn g fuel rest with
      | none => none
      | some rs => some ((a, r) :: rs)

/-- The inner cache loop (`for i, a in enumerate(fromcities)`) for one
destination `b`. -/
def cacheRow (n fuel b : ℕ) :
    List (ℕ × (ℕ → Option α) × (ℕ → ℤ)) → List ((PKey × PKey) × (List ℕ × α)) →
      Option (List ((PKey × PKey) × (List ℕ × α)))
  | [], acc => some acc
  | ar :: rest, acc =>
    if ar.1 = b then cacheRow n fuel b rest acc
    else
      match cacheInsert n ar.1 ar.2.1 ar.2.2 b fuel acc with
      | none => none
      | some acc2 => cacheRow n fuel b rest acc2

/-- The outer cache loop (`for b in tocities`). -/
def cacheAll (n fuel : ℕ) (runs : List (ℕ × (ℕ → Option α) × (ℕ → ℤ))) :
    List ℕ → List ((PKey × PKey) × (List ℕ × α)) →
      Option (List ((PKey × PKey) × (List ℕ × α)))
  | [], acc => some acc
  | b :: bs, acc =>
    match cacheRow n fuel b runs acc with
    | none => none
    | some acc2 => cacheAll n fuel runs bs acc2

/-- `fill_path_cache(cities)`: extend the boundary strip — the in-place
`extend_area` call overwrites the stored boundary flags — build the dok
routing graph over `n + 2` nodes, run Dijkstra from every source
(`cities + [topleft]`), and cache a path and distance for every
source/destination pair (destinations are `cities + [bottomright]`).
`none` models a crash (failed reconstruction of an unreachable pair, or
fuel exhaustion). -/
def MapState.fill_path_cache (s : MapState α) (rt : α → α) (cities : List ℕ)
    (fuel : ℕ) : Option (MapState α) :=
  let edge2 := extendArea s s.edge 5
  let s1 : MapState α := { s with edge := edge2 }
  let g := dokGet (pathGraphWrites rt s1 edge2)
  match runDijkstras (s.n + 2) g fuel (cities ++ [s.n]) with
  | none => none
  | some runs =>
    match cacheAll s.n fuel runs (cities ++ [s.n + 1]) s1.path_cache with
    | none => none
    | some cache2 => some { s1 with path_cache := cache2 }

/-- The 14-vertex routing scenario: a chain `0 → 1 → … → 10` whose root 0 is
the only original boundary vertex (so the tenth dilation pass flags exactly
`0 .. 10`), two land cities 11 and 12, and a filler vertex 13.  Vertex 10
sits on the topleft diagonal half; the `-1` adjacency slots give every other
vertex its dok edge to the bottomright anchor column. -/
def sPC : MapState ℚ where
  n := 14
  adj := fun u i =>
    if u < 10 then (if i = 0 then (u : ℤ) + 1 else -1)
    else if u = 10 then (if i = 0 then 11 else -1)
    else if u = 11 then (if i = 0 then 12 else -1)
    else if u = 12 then (if i = 0 then 11 else -1)
    else if u = 13 then (if i = 0 then 11 else if i = 1 then 12 else 11)
    else -1
  vxs := fun u =>
    if u < 10 then ((u : ℚ), (u : ℚ))
    else if u = 10 then (0, 1)
    else if u = 11 then (12, 0)
    else if u = 12 then (13, 0)
    else if u = 13 then (5, 7)
    else (0, 0)
  edge := fun u => decide (u = 0)
  elevation := fun u => if u = 11 then 1 else if u = 12 then 2 else 0
  downhill := fun _ => -1
  flow := fun _ => 0
  slope := fun _ => 0
  territories := fun _ => -1
  cities := [11, 12]
  forests := ∅
  city_score := fun _ => 0
  forest_score := fun _ => 0
  path_cache := []
  regions := []
  elevation_pts := fun _ => 0

/-- The state produced by `fill_path_cache([11, 12])` on `sPC`. -/
def sPCout : MapState ℚ := (sPC.fill_path_cache id [11, 12] 40).getD sPC

unseal Rat.add Rat.sub Rat.mul Rat.inv in
/-- Claim C7 counterexample: after a successful bulk cache fill, the pair
`("topleft", 11)` is cached while `(11, "topleft")` is not, and the two
cached directions of the city pair `(11, 12)` carry different costs (the
cost model is direction-asymmetric), refuting both the presence symmetry and
the equal-cost half of the claim. -/
theorem claim_C7_counterexample :
    sPC.fill_path_cache id [11, 12] 40 = some sPCout ∧
      (cacheFind sPCout.path_cache (PKey.topleft, PKey.v 11)).isSome = true ∧
      (cacheFind sPCout.path_cache (PKey.v 11, PKey.topleft)).isSome = false ∧
      (cacheFind sPCout.path_cache (PKey.v 11, PKey.v 12)).map (fun e => e.2) ≠
        (cacheFind sPCout.path_cache (PKey.v 12, PKey.v 11)).map (fun e => e.2) := by
  refine ⟨rfl, by decide, by decide, by decide⟩

unseal Rat.add Rat.sub Rat.mul Rat.inv in
/-- Claim C8: `fill_path_cache` passes `self.edge` to `extend_area`, whose
in-place writes dilate the stored boundary flags (ten passes); here vertex 5
is not a boundary vertex before the call and is flagged after it. -/
theorem claim_C8_edge_mutated :
    sPC.edge 5 = false ∧
      (sPC.fill_path_cache id [11, 12] 40).map (fun t => t.edge 5) = some true := by
  exact ⟨by decide, by decide⟩

theorem runDijkstras_fst (nn : ℕ) (g : ℕ → ℕ → Option α) (fuel : ℕ) :
    ∀ (l : List ℕ) (runs : List (ℕ × (ℕ → Option α) × (ℕ → ℤ))),
      runDijkstras nn g fuel l = some runs → runs.map (fun ar => ar.1) = l := by
  intro l
  induction l with
  | nil =>
    intro runs h
    simp only [runDijkstras, Option.some.injEq] at h
    rw [← h]
    rfl
  | cons a rest ih =>
    intro runs h
    simp only [runDijkstras] at h
    cases h1 : dijkstraFrom nn g a fuel with
    | none => rw [h1] at h; cases h
    | some r =>
      rw [h1] at h
      dsimp only at h
      cases h2 : runDijkstras nn g fuel rest with
      | none => rw [h2] at h; cases h
      | some rs =>
        rw [h2] at h
        dsimp only at h
        injection h with h
        rw [← h]
        simp only [List.map_cons]
        rw [ih rs h2]

theorem cacheInsert_shape (n a : ℕ) (dist : ℕ → Option α) (preds : ℕ → ℤ) (b fuel : ℕ)
    (acc acc2 : List ((PKey × PKey) × (List ℕ × α)))
    (h : cacheInsert n a dist preds b fuel acc = some acc2) :
    ∃ val, acc2 = ((pkOf n a, pkOfB n b), val) :: acc := by
  unfold cacheInsert at h
  cases h1 : reconPath preds a fuel [b] with
  | none => rw [h1] at h; cases h
  | some p =>
    rw [h1] at h
    dsimp only at h
    cases h2 : dist b with
    | none => rw [h2] at h; cases h
    | some d =>
      rw [h2] at h
      dsimp only at h
      injection h with h
      exact ⟨_, h.symm⟩

theorem cacheRow_spec (n fuel b : ℕ) :
    ∀ (runs : List (ℕ × (ℕ → Option α) × (ℕ → ℤ)))
      (acc res : List ((PKey × PKey) × (List ℕ × α))),
      cacheRow n fuel b runs acc = some res →
      (∀ e ∈ acc, e ∈ res) ∧
      (∀ ar ∈ runs, ar.1 ≠ b →
        ∃ val, ((pkOf n ar.1, pkOfB n b), val) ∈ res) ∧
      (∀ e ∈ res, e ∈ acc ∨ ∃ a, e.1 = (pkOf n a, pkOfB n b)) := by
  intro runs
  induction runs with
  | nil =>
    intro acc res h
    simp only [cacheRow, Option.some.injEq] at h
    subst h
    exact ⟨fun e he => he, fun ar har => absurd har (by simp), fun e he => Or.inl he⟩
  | cons ar rest ih =>
    intro acc res h
    simp only [cacheRow] at h
    by_cases hab : ar.1 = b
    · rw [if_pos hab] at h
      obtain ⟨hmono, hpres, hshape⟩ := ih acc res h
      refine ⟨hmono, ?_, hshape⟩
      intro ar2 har2 hne
      rcases List.mem_cons.mp har2 with rfl | hmem
      · exact absurd hab hne
      · exact hpres ar2 hmem hne
    · rw [if_neg hab] at h
      cases hci : cacheInsert n ar.1 ar.2.1 ar.2.2 b fuel acc with
      | none => rw [hci] at h; cases h
      | some acc2 =>
        rw [hci] at h
        dsimp only at h
        obtain ⟨val, hacc2⟩ := cacheInsert_shape n ar.1 ar.2.1 ar.2.2 b fuel acc acc2 hci
        obtain ⟨hmono, hpres, hshape⟩ := ih acc2 res h
        refine ⟨?_, ?_, ?_⟩
        · intro e he
          exact hmono e (by rw [hacc2]; exact List.mem_cons_of_mem _ he)
        · intro ar2 har2 hne
          rcases List.mem_cons.mp har2 with rfl | hmem
          · exact ⟨val, hmono _ (by rw [hacc2]; exact List.mem_cons_self _ _)⟩
          · exact hpres ar2 hmem hne
        · intro e he
          rcases hshape e he with hacc | hsh
          · rw [hacc2] at hacc
            rcases List.mem_cons.mp hacc with rfl | hmem
            · exact Or.inr ⟨ar.1, rfl⟩
            · exact Or.inl hmem
          · exact Or.inr hsh

theorem cacheAll_spec (n fuel : ℕ) (runs : List (ℕ × (ℕ → Option α) × (ℕ → ℤ))) :
    ∀ (bs : List ℕ) (acc res : List ((PKey × PKey) × (List ℕ × α))),
      cacheAll n fuel runs bs acc = some res →
      (∀ e ∈ acc, e ∈ res) ∧
      (∀ b ∈ bs, ∀ ar ∈ runs, ar.1 ≠ b →
        ∃ val, ((pkOf n ar.1, pkOfB n b), val) ∈ res) ∧
      (∀ e ∈ res, e ∈ acc ∨ ∃ a b, e.1 = (pkOf n a, pkOfB n b)) := by
  intro bs
  induction bs with
  | nil =>
    intro acc res h
    simp only [cacheAll, Option.some.injEq] at h
    subst h
    exact ⟨fun e he => he, fun b hb => absurd hb (by simp), fun e he => Or.inl he⟩
  | cons b bs ih =>
    intro acc res h
    simp only [cacheAll] at h
    cases hrow : cacheRow n fuel b runs acc with
    | none => rw [hrow] at h; cases h
    | some acc2 =>
      rw [hrow] at h
      dsimp only at h
      obtain ⟨hm1, hp1, hs1⟩ := cacheRow_spec n fuel b runs acc acc2 hrow
      obtain ⟨hm2, hp2, hs2⟩ := ih acc2 res h
      refine ⟨fun e he => hm2 e (hm1 e he), ?_, ?_⟩
      · intro b2 hb2 ar har hne
        rcases List.mem_cons.mp hb2 with rfl | hmem
        · obtain ⟨val, hval⟩ := hp1 ar har hne
          exact ⟨val, hm2 _ hval⟩
        · exact hp2 b2 hmem ar har hne
      · intro e he
        rcases hs2 e he with hacc2 | hsh
        · rcases hs1 e hacc2 with hacc | hsh1
          · exact Or.inl hacc
          · obtain ⟨a, ha⟩ := hsh1
            exact Or.inr ⟨a, b, ha⟩
        · exact Or.inr hsh

theorem cacheFind_isSome_of_mem (cache : List ((PKey × PKey) × (List ℕ × α)))
    (k : PKey × PKey) (val : List ℕ × α) (h : (k, val) ∈ cache) :
    (cacheFind cache k).isSome = true := by
  unfold cacheFind
  cases hf : List.find? (fun e => decide (e.1 = k)) cache with
  | none =>
    exfalso
    have := List.find?_eq_none.mp hf (k, val) h
    simp at this
  | some e => rfl

theorem cacheFind_isSome_mem (cache : List ((PKey × PKey) × (List ℕ × α)))
    (k : PKey × PKey) (h : (cacheFind cache k).isSome = true) :
    ∃ e ∈ cache, e.1 = k := by
  unfold cacheFind at h
  cases hf : List.find? (fun e => decide (e.1 = k)) cache with
  | none => rw [hf] at h; simp at h
  | some e =>
    have hp := @List.find?_some _ (fun e => decide (e.1 = k)) e cache hf
    exact ⟨e, List.mem_of_find?_eq_some hf, of_decide_eq_true hp⟩

/-- Claim C7 (amended): after a bulk `fill_path_cache(cities)` on an empty
cache, every ordered pair of two distinct cities is cached — so city pairs
are cached in both directions — while anchor pairs are cached in one
direction only: topleft occurs only as a source and bottomright only as a
destination (the claim's reverse-path/equal-cost part does not hold, the
cost model being direction-asymmetric). -/
theorem claim_C7_cache_domain (rt : α → α) (s : MapState α) (cities : List ℕ)
    (fuel : ℕ) (s2 : MapState α) (h : s.fill_path_cache rt cities fuel = some s2)
    (hc0 : s.path_cache = []) (hlt : ∀ c ∈ cities, c < s.n) :
    (∀ a ∈ cities, ∀ b ∈ cities, a ≠ b →
      (cacheFind s2.path_cache (PKey.v a, PKey.v b)).isSome = true ∧
      (cacheFind s2.path_cache (PKey.v b, PKey.v a)).isSome = true) ∧
    (∀ b ∈ cities,
      (cacheFind s2.path_cache (PKey.topleft, PKey.v b)).isSome = true ∧
      (cacheFind s2.path_cache (PKey.v b, PKey.bottomright)).isSome = true ∧
      (cacheFind s2.path_cache (PKey.v b, PKey.topleft)).isSome = false ∧
      (cacheFind s2.path_cache (PKey.bottomright, PKey.v b)).isSome = false) := by
  have hunf : s.fill_path_cache rt cities fuel =
      (match runDijkstras (s.n + 2)
          (dokGet (pathGraphWrites rt ({ s with edge := extendArea s s.edge 5 })
            (extendArea s s.edge 5)))
          fuel (cities ++ [s.n]) with
        | none => none
        | some runs =>
          match cacheAll s.n fuel runs (cities ++ [s.n + 1]) s.path_cache with
          | none => none
          | some cache2 =>
            some { s with edge := extendArea s s.edge 5, path_cache := cache2 }) := rfl
  rw [hunf] at h
  cases hrd : runDijkstras (s.n + 2)
      (dokGet (pathGraphWrites rt ({ s with edge := extendArea s s.edge 5 })
        (extendArea s s.edge 5)))
      fuel (cities ++ [s.n]) with
  | none => rw [hrd] at h; cases h
  | some runs =>
    rw [hrd] at h
    dsimp only at h
    cases hca : cacheAll s.n fuel runs (cities ++ [s.n + 1]) s.path_cache with
    | none => rw [hca] at h; cases h
    | some cache2 =>
      rw [hca] at h
      dsimp only at h
      injection h with h
      have hpc : s2.path_cache = cache2 := by rw [← h]
      rw [hc0] at hca
      obtain ⟨_, hpres, hshape⟩ := cacheAll_spec s.n fuel runs (cities ++ [s.n + 1])
        [] cache2 hca
      have hfst := runDijkstras_fst (s.n + 2) _ fuel (cities ++ [s.n]) runs hrd
      have hrun_of : ∀ a ∈ cities ++ [s.n], ∃ ar ∈ runs, ar.1 = a := by
        intro a ha
        rw [← hfst] at ha
        obtain ⟨ar, har, hae⟩ := List.mem_map.mp ha
        exact ⟨ar, har, hae⟩
      have hkey : ∀ a b, a ∈ cities ++ [s.n] → b ∈ cities ++ [s.n + 1] → a ≠ b →
          (cacheFind cache2 (pkOf s.n a, pkOfB s.n b)).isSome = true := by
        intro a b ha hb hne
        obtain ⟨ar, har, hae⟩ := hrun_of a ha
        obtain ⟨val, hval⟩ := hpres b hb ar har (by rw [hae]; exact hne)
        rw [hae] at hval
        exact cacheFind_isSome_of_mem cache2 _ val hval
      have habsent : ∀ k : PKey × PKey,
          (∀ a b : ℕ, (pkOf s.n a, pkOfB s.n b) ≠ k) →
          (cacheFind cache2 k).isSome = false := by
        intro k hk
        by_contra hcon
        obtain ⟨e, he, hek⟩ := cacheFind_isSome_mem cache2 k
          (by revert hcon; cases (cacheFind cache2 k).isSome <;> simp)
        rcases hshape e he with hnil | ⟨a, b, hab⟩
        · cases hnil
        · exact hk a b (by rw [← hab, hek])
      have hvOf : ∀ c ∈ cities, pkOf s.n c = PKey.v c := by
        intro c hc
        unfold pkOf
        rw [if_neg (by have := hlt c hc; omega)]
      have hvOfB : ∀ c ∈ cities, pkOfB s.n c = PKey.v c := by
        intro c hc
        unfold pkOfB
        rw [if_neg (by have := hlt c hc; omega)]
      rw [hpc]
      constructor
      · intro a ha b hb hne
        constructor
        · have := hkey a b (List.mem_append_left _ ha) (List.mem_append_left _ hb) hne
          rwa [hvOf a ha, hvOfB b hb] at this
        · have := hkey b a (List.mem_append_left _ hb) (List.mem_append_left _ ha)
            (fun hEq => hne hEq.symm)
          rwa [hvOf b hb, hvOfB a ha] at this
      · intro b hb
        have hbn : b < s.n := hlt b hb
        refine ⟨?_, ?_, ?_, ?_⟩
        · have := hkey s.n b (List.mem_append_right _ (by simp))
            (List.mem_append_left _ hb) (by omega)
          rwa [hvOfB b hb, (by unfold pkOf; rw [if_pos rfl] : pkOf s.n s.n =
            PKey.topleft)] at this
        · have := hkey b (s.n + 1) (List.mem_append_left _ hb)
            (List.mem_append_right _ (by simp)) (by omega)
          rwa [hvOf b hb, (by unfold pkOfB; rw [if_pos rfl] : pkOfB s.n (s.n + 1) =
            PKey.bottomright)] at this
        · apply habsent
          intro a' b' hEq
          have h2 : pkOfB s.n b' = PKey.topleft := congrArg Prod.snd hEq
          unfold pkOfB at h2
          by_cases hb' : b' = s.n + 1
          · rw [if_pos hb'] at h2
            cases h2
          · rw [if_neg hb'] at h2
            cases h2
        · apply habsent
          intro a' b' hEq
          have h1 : pkOf s.n a' = PKey.bottomright := congrArg Prod.fst hEq
          unfold pkOf at h1
          by_cases ha' : a' = s.n
          · rw [if_pos ha'] at h1
            cases h1
          · rw [if_neg ha'] at h1
            cases h1

unseal Rat.add Rat.sub Rat.mul Rat.inv in
theorem claim_C7_witness :
    sPC.fill_path_cache id [11, 12] 40 = some sPCout ∧ sPC.path_cache = [] ∧
      (∀ c ∈ [11, 12], c < sPC.n) ∧
      ((∀ a ∈ [11, 12], ∀ b ∈ [11, 12], a ≠ b →
        (cacheFind sPCout.path_cache (PKey.v a, PKey.v b)).isSome = true ∧
        (cacheFind sPCout.path_cache (PKey.v b, PKey.v a)).isSome = true) ∧
      (∀ b ∈ [11, 12],
        (cacheFind sPCout.path_cache (PKey.topleft, PKey.v b)).isSome = true ∧
        (cacheFind sPCout.path_cache (PKey.v b, PKey.bottomright)).isSome = true ∧
        (cacheFind sPCout.path_cache (PKey.v b, PKey.topleft)).isSome = false ∧
        (cacheFind sPCout.path_cache (PKey.bottomright, PKey.v b)).isSome = false)) := by
  refine ⟨rfl, rfl, by decide, ?_⟩
  exact claim_C7_cache_domain id sPC [11, 12] 40 sPCout rfl rfl (by decide)

/-- Key of the 4-tuples `(d + est, d, w, u)` pushed on the `shortest_path`
heap: Python compares tuples lexicographically. -/
def key4 (e : α × α × ℕ × ℤ) : Lex (α × Lex (α × Lex (ℕ × ℤ))) :=
  toLex (e.1, toLex (e.2.1, toLex (e.2.2.1, e.2.2.2)))

/-- Membership test `u in best_dir` (the dict is keyed by vertex id). -/
def spMemBD (u : ℕ) (bd : List (ℕ × ℤ)) : Bool :=
  bd.any fun e => decide (e.1 = u)

/-- Dictionary read `best_dir[u]` (the search never inserts a key twice). -/
def spLookupBD (bd : List (ℕ × ℤ)) (u : ℕ) : Option ℤ :=
  (bd.find? fun e => decide (e.1 = u)).map (·.2)

/-- The loop guard `start not in best_dir`: a symbolic corner name is never
a key of the dict, so only an integer `start` can end the loop this way. -/
def spStartDone (start : PKey) (bd : List (ℕ × ℤ)) : Bool :=
  match start with
  | PKey.v a => spMemBD a bd
  | _ => false

/-- Path reconstruction `path = [cur]; while path[-1] != end:
path.append(best_dir[path[-1]])`, fueled; `none` models a `KeyError`
(including the step through the `-1` seed entry) or an endless walk. -/
def spRecon (bd : List (ℕ × ℤ)) (endPk : PKey) : ℕ → ℕ → Option (List ℕ)
  | 0, _ => none
  | fuel + 1, cur =>
    if PKey.v cur = endPk then some [cur]
    else
      match spLookupBD bd cur with
      | none => none
      | some vz =>
        if vz < 0 then none
        else (spRecon bd endPk fuel vz.toNat).map (fun rest => cur :: rest)

/-- The common tail of `shortest_path`: reconstruct the final path from the
(by now integer) `start`, cache it under the original orientation, and
return it. -/
def spFinish (endPk : PKey) (flipped : Bool) (s : MapState α) (a : ℕ)
    (bd : List (ℕ × ℤ)) (length : α) : Option (MapState α × List ℕ × α) :=
  match spRecon bd endPk (bd.length + 1) a with
  | none => none
  | some p =>
    if flipped then
      some ({ s with
        path_cache := ((endPk, PKey.v a), (p.reverse, length)) :: s.path_cache },
        p.reverse, length)
    else
      some ({ s with
        path_cache := ((PKey.v a, endPk), (p, length)) :: s.path_cache },
        p, length)

/-- The territory block of the `shortest_path` loop: on claiming a vertex
`u` inside some city's sphere, update `length` to its distance, and when
`u` owns itself also cache the reconstructed path from `u`; `none` models
the `KeyError` of a failed reconstruction. -/
def spTerr (endPk : PKey) (flipped : Bool) (s : MapState α) (u : ℕ) (dist : α)
    (bd : List (ℕ × ℤ)) (length : α) : Option (MapState α × α) :=
  if s.territories u < 2 ^ (sizemap - 3) then
    if s.territories u = (u : ℤ) then
      match spRecon bd endPk (bd.length + 1) u with
      | none => none
      | some p =>
        if flipped then
          some ({ s with
            path_cache := ((endPk, PKey.v u), (p.reverse, dist)) :: s.path_cache },
            dist)
        else
          some ({ s with
            path_cache := ((PKey.v u, endPk), (p, dist)) :: s.path_cache },
            dist)
    else some (s, dist)
  else some (s, length)

/-- The corner-anchor test of the loop: a symbolic `start` is replaced by
the first claimed boundary vertex on the matching side of the diagonal. -/
def spBreak (s : MapState α) (start : PKey) (u : ℕ) : Bool :=
  match start with
  | PKey.topleft => s.edge u && decide ((s.vxs u).1 - (s.vxs u).2 < -(1 / 2 : α))
  | PKey.bottomright => s.edge u && decide ((s.vxs u).1 - (s.vxs u).2 > (1 / 2 : α))
  | PKey.v _ => false

/-- The relaxation pushes of one `shortest_path` iteration: every real,
unclaimed neighbour `w` of `u` not joined to it by a boundary-boundary edge
is pushed at cost `dist + edge_weight(w, u)` with the A* estimate toward
`end`; `none` models the crash of the estimate on a symbolic `end`. -/
def spPushes (rt : α → α) (s : MapState α) (endPk : PKey) (u : ℕ) (dist : α)
    (bd : List (ℕ × ℤ)) : Option (List (α × α × ℕ × ℤ)) :=
  match endPk with
  | PKey.v e0 =>
    some ((List.finRange 3).filterMap fun j =>
      if s.adj u j = -1 then none
      else if spMemBD (s.adj u j).toNat bd then none
      else if s.edge u && s.edge (s.adj u j).toNat then none
      else
        some (dist + s.edge_weight rt (s.adj u j) (u : ℤ) false +
            distF rt (s.vxs e0) (s.vxs (s.adj u j).toNat) * (85 / 100),
          dist + s.edge_weight rt (s.adj u j) (u : ℤ) false,
          (s.adj u j).toNat, (u : ℤ)))
  | _ => none

/-- The main A* loop of `shortest_path`, fueled.  `none` models the
`IndexError` of popping an empty heap, every other uncaught exception, and
running out of fuel. -/
def spLoop (rt : α → α) (endPk : PKey) (flipped : Bool) :
    ℕ → MapState α → PKey → List (α × α × ℕ × ℤ) → List (ℕ × ℤ) → α →
      Option (MapState α × List ℕ × α)
  | 0, _, _, _, _, _ => none
  | fuel + 1, s, start, q, bd, length =>
    if spStartDone start bd then
      match start with
      | PKey.v a => spFinish endPk flipped s a bd length
      | _ => none
    else
      match popMinBy key4 q with
      | none => none
      | some (e, q2) =>
        if spMemBD e.2.2.1 bd then spLoop rt endPk flipped fuel s start q2 bd length
        else
          match spTerr endPk flipped s e.2.2.1 e.2.1 ((e.2.2.1, e.2.2.2) :: bd) length with
          | none => none
          | some (s2, len2) =>
            if spBreak s2 start e.2.2.1 then
              spFinish endPk flipped s2 e.2.2.1 ((e.2.2.1, e.2.2.2) :: bd) len2
            else
              match spPushes rt s2 endPk e.2.2.1 e.2.1 ((e.2.2.1, e.2.2.2) :: bd) with
              | none => none
              | some items =>
                spLoop rt endPk flipped fuel s2 start (items ++ q2)
                  ((e.2.2.1, e.2.2.2) :: bd) len2

/-- `MapGrid.shortest_path`: serve the pair from the cache when present,
swap a symbolic destination onto the source side, seed the heap with the
destination, and run the A* loop.  `none` models any uncaught exception
(notably the `IndexError` when the heap runs dry). -/
def MapState.shortest_path (s : MapState α) (rt : α → α) (start end0 : PKey)
    (fuel : ℕ) : Option (MapState α × List ℕ × α) :=
  match cacheFind s.path_cache (start, end0) with
  | some val => some (s, val)
  | none =>
    match end0 with
    | PKey.v e0 => spLoop rt (PKey.v e0) false fuel s start [(0, 0, e0, -1)] [] 0
    | _ =>
      match start with
      | PKey.v e0 => spLoop rt (PKey.v e0) true fuel s end0 [(0, 0, e0, -1)] [] 0
      | _ => none

/-- Search reachability of `shortest_path`: the vertices its heap can ever
hold when the search is seeded at `b` (edges between two boundary vertices
are blocked, `-1` slots are skipped). -/
inductive SPReach (adj : ℕ → Fin 3 → ℤ) (edge : ℕ → Bool) (b : ℕ) : ℕ → Prop
  | base : SPReach adj edge b b
  | step (u w : ℕ) : SPReach adj edge b u → (∃ j : Fin 3, adj u j = (w : ℤ)) →
      ¬(edge u = true ∧ edge w = true) → SPReach adj edge b w

/-- Every adjacency slot holds a vertex id or the `-1` filler — a
well-formedness fact of the triangulated mesh. -/
def AdjBounded (s : MapState α) : Prop :=
  ∀ (u : ℕ) (j : Fin 3), -1 ≤ s.adj u j

theorem spTerr_fields (endPk : PKey) (flipped : Bool) (s : MapState α) (u : ℕ)
    (dist : α) (bd : List (ℕ × ℤ)) (length : α) (s2 : MapState α) (len2 : α)
    (h : spTerr endPk flipped s u dist bd length = some (s2, len2)) :
    s2.adj = s.adj ∧ s2.edge = s.edge := by
  unfold spTerr at h
  by_cases h1 : s.territories u < 2 ^ (sizemap - 3)
  · rw [if_pos h1] at h
    by_cases h2 : s.territories u = (u : ℤ)
    · rw [if_pos h2] at h
      cases hr : spRecon bd endPk (bd.length + 1) u with
      | none => rw [hr] at h; cases h
      | some p =>
        rw [hr] at h
        dsimp only at h
        cases flipped with
        | true =>
          rw [if_pos rfl] at h
          injection h with h
          rw [Prod.mk.injEq] at h
          rw [← h.1]
          exact ⟨rfl, rfl⟩
        | false =>
          rw [if_neg (by simp)] at h
          injection h with h
          rw [Prod.mk.injEq] at h
          rw [← h.1]
          exact ⟨rfl, rfl⟩
    · rw [if_neg h2] at h
      injection h with h
      rw [Prod.mk.injEq] at h
      rw [← h.1]
      exact ⟨rfl, rfl⟩
  · rw [if_neg h1] at h
    injection h with h
    rw [Prod.mk.injEq] at h
    rw [← h.1]
    exact ⟨rfl, rfl⟩

theorem spPushes_reach (rt : α → α) (s : MapState α) (b u : ℕ) (dist : α)
    (bd : List (ℕ × ℤ)) (items : List (α × α × ℕ × ℤ)) (adj0 : ℕ → Fin 3 → ℤ)
    (edge0 : ℕ → Bool) (hadj : ∀ (x : ℕ) (j : Fin 3), -1 ≤ adj0 x j)
    (hsa : s.adj = adj0) (hse : s.edge = edge0)
    (h : spPushes rt s (PKey.v b) u dist bd = some items)
    (hu : SPReach adj0 edge0 b u) :
    ∀ e ∈ items, SPReach adj0 edge0 b e.2.2.1 := by
  unfold spPushes at h
  dsimp only at h
  injection h with h
  intro e he
  rw [← h] at he
  obtain ⟨j, hjmem, hje⟩ := List.mem_filterMap.mp he
  by_cases h1 : s.adj u j = -1
  · rw [if_pos h1] at hje; cases hje
  · rw [if_neg h1] at hje
    by_cases h2 : spMemBD (s.adj u j).toNat bd = true
    · rw [if_pos h2] at hje; cases hje
    · rw [if_neg h2] at hje
      by_cases h3 : (s.edge u && s.edge (s.adj u j).toNat) = true
      · rw [if_pos h3] at hje; cases hje
      · rw [if_neg h3] at hje
        injection hje with hje
        rw [← hje]
        have h4 := hadj u j
        rw [← hsa] at h4
        have hge : 0 ≤ s.adj u j := by omega
        refine SPReach.step u (s.adj u j).toNat hu ⟨j, ?_⟩ ?_
        · rw [← hsa]
          exact (Int.toNat_of_nonneg hge).symm
        · rintro ⟨hcu, hcw⟩
          apply h3
          rw [Bool.and_eq_true]
          rw [← hse] at hcu hcw
          exact ⟨hcu, hcw⟩

theorem spLoop_unreach (rt : α → α) (adj0 : ℕ → Fin 3 → ℤ) (edge0 : ℕ → Bool)
    (b a : ℕ) (hadj : ∀ (x : ℕ) (j : Fin 3), -1 ≤ adj0 x j)
    (hna : ¬ SPReach adj0 edge0 b a) :
    ∀ (fuel : ℕ) (s : MapState α) (q : List (α × α × ℕ × ℤ))
      (bd : List (ℕ × ℤ)) (length : α),
      s.adj = adj0 → s.edge = edge0 →
      (∀ e ∈ q, SPReach adj0 edge0 b e.2.2.1) →
      (∀ p ∈ bd, SPReach adj0 edge0 b p.1) →
      spLoop rt (PKey.v b) false fuel s (PKey.v a) q bd length = none := by
  intro fuel
  induction fuel with
  | zero => intro s q bd length _ _ _ _; rfl
  | succ fuel ih =>
    intro s q bd length hsa hse hq hbd
    have hsd : spStartDone (PKey.v a) bd = false := by
      unfold spStartDone spMemBD
      rw [List.any_eq_false]
      intro p hp
      simp only [decide_eq_true_eq]
      intro hpa
      exact hna (hpa ▸ hbd p hp)
    simp only [spLoop, hsd, Bool.false_eq_true, if_false]
    cases hpop : popMinBy key4 q with
    | none => rfl
    | some pr =>
      obtain ⟨e, q2⟩ := pr
      dsimp only
      have hperm := popMinBy_perm key4 q e q2 hpop
      have heq : e ∈ q := hperm.symm.subset (List.mem_cons_self _ _)
      have hq2sub : ∀ x ∈ q2, x ∈ q :=
        fun x hx => hperm.symm.subset (List.mem_cons_of_mem _ hx)
      by_cases hmem : spMemBD e.2.2.1 bd = true
      · rw [if_pos hmem]
        exact ih s q2 bd length hsa hse (fun x hx => hq x (hq2sub x hx)) hbd
      · rw [if_neg hmem]
        cases hterr : spTerr (PKey.v b) false s e.2.2.1 e.2.1
            ((e.2.2.1, e.2.2.2) :: bd) length with
        | none => rfl
        | some pr2 =>
          obtain ⟨s2, len2⟩ := pr2
          dsimp only
          obtain ⟨hs2a, hs2e⟩ := spTerr_fields _ _ _ _ _ _ _ _ _ hterr
          rw [show spBreak s2 (PKey.v a) e.2.2.1 = false from rfl]
          simp only [Bool.false_eq_true, if_false]
          have hue : SPReach adj0 edge0 b e.2.2.1 := hq e heq
          cases hpush : spPushes rt s2 (PKey.v b) e.2.2.1 e.2.1
              ((e.2.2.1, e.2.2.2) :: bd) with
          | none => rfl
          | some items =>
            dsimp only
            have hitems := spPushes_reach rt s2 b e.2.2.1 e.2.1 _ items adj0 edge0
              hadj (hs2a.trans hsa) (hs2e.trans hse) hpush hue
            apply ih s2 (items ++ q2) ((e.2.2.1, e.2.2.2) :: bd) len2
              (hs2a.trans hsa) (hs2e.trans hse)
            · intro x hx
              rcases List.mem_append.mp hx with h1 | h2
              · exact hitems x h1
              · exact hq x (hq2sub x h2)
            · intro p hp
              rcases List.mem_cons.mp hp with rfl | h2
              · exact hue
              · exact hbd p h2

/-- Claim C9: on a pair of mesh-vertex endpoints with no route between them
in the buffer-stripped search graph (and not already cached),
`shortest_path` never returns a result — for any amount of fuel it models
the uncaught `IndexError` raised on draining the heap — so an unreachable
pair is signalled by that distinct exceptional outcome rather than by an
empty or zero-cost path. -/
theorem claim_C9_unreachable (rt : α → α) (s : MapState α) (a b : ℕ)
    (hadj : AdjBounded s)
    (hcache : cacheFind s.path_cache (PKey.v a, PKey.v b) = none)
    (hna : ¬ SPReach s.adj s.edge b a) :
    ∀ fuel, s.shortest_path rt (PKey.v a) (PKey.v b) fuel = none := by
  intro fuel
  unfold MapState.shortest_path
  rw [hcache]
  dsimp only
  exact spLoop_unreach rt s.adj s.edge b a hadj hna fuel s [(0, 0, b, -1)] [] 0
    rfl rfl
    (fun e he => by
      rcases List.mem_singleton.mp he with rfl
      exact SPReach.base)
    (fun p hp => absurd hp (List.not_mem_nil p))

/-- A 2-vertex mesh with no adjacencies at all: vertex `1` cannot reach
vertex `0` in the search graph. -/
def sW9 : MapState ℚ where
  n := 2
  adj := fun _ _ => -1
  vxs := fun _ => (0, 0)
  edge := fun _ => false
  elevation := fun _ => 0
  downhill := fun _ => -1
  flow := fun _ => 0
  slope := fun _ => 0
  territories := fun _ => -1
  cities := []
  forests := ∅
  city_score := fun _ => 0
  forest_score := fun _ => 0
  path_cache := []
  regions := []
  elevation_pts := fun _ => 0

theorem claim_C9_witness :
    AdjBounded sW9 ∧ cacheFind sW9.path_cache (PKey.v 0, PKey.v 1) = none ∧
      ¬ SPReach sW9.adj sW9.edge 1 0 ∧
      sW9.shortest_path id (PKey.v 0) (PKey.v 1) 5 = none := by
  have hadj : AdjBounded sW9 := fun x j => le_refl _
  have hgen : ∀ x, SPReach sW9.adj sW9.edge 1 x → x = 1 := by
    intro x h
    induction h with
    | base => rfl
    | step u w hu hj he ih =>
      exfalso
      obtain ⟨j, hj⟩ := hj
      have hj2 : (-1 : ℤ) = (w : ℤ) := hj
      omega
  have hna : ¬ SPReach sW9.adj sW9.edge 1 0 := fun h => absurd (hgen 0 h) (by decide)
  exact ⟨hadj, rfl, hna, claim_C9_unreachable id sW9 0 1 hadj rfl hna 5⟩

end Terrain
